import Mathlib

/-!
Verification development for the tree_guide header (guided random-choice
engine).  The C++ source defines three guide/chooser pairs — BFSGuide,
DefaultGuide, WeightedSamplerGuide — over a shared decision-tree protocol.

Modelling conventions.
The C++ heap is modelled as a store (a list of nodes indexed by allocation
order); pointers become store indices, the root is index 0.  The PRNG
(std::mt19937_64) is an infinite stream of raw natural-number draws with a
cursor; each distribution sample consumes one raw draw.  The C++ standard does
not pin the algorithm of uniform_int_distribution or discrete_distribution, so
each is modelled as a function of one raw draw that satisfies the range
guarantee the standard does give.  Fallible behaviour (a failing assert, the
exit(-1) diagnostic path, and undefined behaviour such as out-of-bounds vector
indexing or violating a distribution precondition) is made explicit with an
error type.  Real arithmetic on weights and size estimates (C++ double) is
idealised as rational arithmetic.
-/

namespace TreeGuide

/-- Model of the per-guide 64-bit PRNG (std::mt19937_64): an infinite stream
of raw draws and a cursor.  Sampling a distribution consumes one raw draw. -/
structure Rng where
  stream : Nat → Nat
  cursor : Nat

/-- The raw draw the next distribution sample will consume. -/
def Rng.peek (g : Rng) : Nat := g.stream g.cursor

/-- Advance past one consumed raw draw. -/
def Rng.next (g : Rng) : Rng := ⟨g.stream, g.cursor + 1⟩

/-- Two's-complement narrowing of a C++ long value to int (32 bits), as
happens to the argument Choices - 1 in the constructor call
uniform_int_distribution<int> Dist(0, Choices - 1) in BFSChooser::choose and
DefaultChooser::choose (the template parameter is int while Choices is long;
the sampler's chooser uses uniform_int_distribution<long> instead). -/
def toInt32 (x : ℤ) : ℤ := (x + 2 ^ 31) % 2 ^ 32 - 2 ^ 31

/-- Model of a std::uniform_int_distribution sample over the closed interval
lo..hi.  The standard requires lo ≤ hi (otherwise the behaviour is undefined,
modelled as none) and guarantees the result lies in the interval; the
algorithm is unspecified, modelled here by reducing the raw draw modulo the
interval width. -/
def uniformIntDraw (lo hi : ℤ) (raw : Nat) : Option ℤ :=
  if lo ≤ hi then some (lo + (raw : ℤ) % (hi - lo + 1)) else none

/-- The full-width draw all three choosers use for chooseUnimportant:
uniform_int_distribution<long> over the whole 64-bit range. -/
def unimportantDraw (g : Rng) : ℤ × Rng :=
  (-(2 : ℤ) ^ 63 + (g.peek : ℤ) % 2 ^ 64, g.next)

/-- Indices carrying a positive weight, used to model discrete_distribution. -/
def positiveIdx (ws : List ℤ) : List Nat :=
  (List.range ws.length).filter (fun i => decide (0 < ws.getD i 0))

/-- Model of a std::discrete_distribution sample built from integer weights:
the standard requires nonnegative weights with positive sum (otherwise
undefined, modelled as none) and guarantees the sampled index has positive
probability; the algorithm is unspecified, modelled by picking among the
positive-weight indices with the raw draw. -/
def discreteDraw (ws : List ℤ) (raw : Nat) : Option Nat :=
  if (∀ w ∈ ws, 0 ≤ w) ∧ positiveIdx ws ≠ [] then
    some ((positiveIdx ws).getD (raw % (positiveIdx ws).length) 0)
  else none

/-- Analogue of discreteDraw for a distribution built from rational weights
(the reweighting pass of the sampler's chooser builds one from doubles). -/
def discreteDrawQ (ws : List ℚ) (raw : Nat) : Option Nat :=
  let pos := (List.range ws.length).filter (fun i => decide (0 < ws.getD i 0))
  if (∀ w ∈ ws, 0 ≤ w) ∧ pos ≠ [] then
    some (pos.getD (raw % pos.length) 0)
  else none

/-- Failure modes of the modelled code: the exit(-1) arity-mismatch diagnostic
of BFSChooser::chooseInternal, a failing assert, and undefined behaviour
(out-of-bounds indexing, violated distribution precondition, missing fuel for
a loop the C++ runs on pointers). -/
inductive Err where
  | arityMismatch : Err
  | assertFail : Err
  | ub : Err
deriving DecidableEq, Repr

----------------------------------------------------------------------------
-- DefaultGuide / DefaultChooser
----------------------------------------------------------------------------

/-- DefaultChooser::choose: one draw from
uniform_int_distribution<int> Dist(0, Choices - 1) — note the narrowing of
the long bound Choices - 1 to int. -/
def defaultChoose (choices : ℤ) (g : Rng) : Option (ℤ × Rng) :=
  (uniformIntDraw 0 (toInt32 (choices - 1)) g.peek).map (fun k => (k, g.next))

/-- DefaultChooser::chooseWeighted: one draw from a discrete_distribution
built from the supplied weights. -/
def defaultChooseWeighted (probs : List ℤ) (g : Rng) : Option (Nat × Rng) :=
  (discreteDraw probs g.peek).map (fun k => (k, g.next))

/-- DefaultChooser::chooseUnimportant: a full-width 64-bit draw. -/
def defaultChooseUnimportant (g : Rng) : ℤ × Rng := unimportantDraw g

----------------------------------------------------------------------------
-- WeightedSamplerGuide / WeightedSamplerChooser
----------------------------------------------------------------------------

/-- A WeightedSamplerGuide::Node.  children holds store indices (None = the
branch was never entered).  childProbs is the observable state of the
ChildSampler member, i.e. the list its probabilities() accessor returns: per
the C++ standard a default-constructed discrete_distribution has the single
probability 1, so a freshly constructed node carries the list consisting of
1 — never the empty list.  sizeEstimate models the double member, which stays
uninitialised (none) until first visit. -/
structure WNode where
  visited : Bool
  children : List (Option Nat)
  childProbs : List ℚ
  sizeEstimate : Option ℚ
deriving DecidableEq, Repr

/-- A default-constructed Node (the guide's root, and every lazily allocated
child). -/
def freshWNode : WNode := ⟨false, [], [1], none⟩

/-- The normalisation a discrete_distribution applies to the weights it is
constructed from: each probability is the weight divided by the total. -/
def normalizeProbs (ws : List ℚ) : List ℚ := ws.map (fun w => w / ws.sum)

/-- WeightedSamplerGuide::Node::visit(n, weights).  On a revisit the arity
must match (assert).  On a first visit the children vector is resized, the
size estimate is set to n, and — when weights were supplied — a
discrete_distribution is stored.  The loop that was meant to divide every
entry of ChildWeights by total iterates up to
ChildSampler.probabilities().size(), which is 1 for the still
default-constructed member, so only entry 0 gets divided; the constructed
distribution then normalises whatever it is given.  Negative weights or a
nonpositive total violate the distribution's precondition (undefined,
modelled as an error). -/
def WNode.visit (nd : WNode) (n : Nat) (ws : List ℤ) : Except Err WNode :=
  if ¬ (ws.length = 0 ∨ ws.length = n) then .error .assertFail
  else if nd.visited then
    if n = nd.children.length then .ok nd else .error .assertFail
  else
    let base : WNode :=
      { visited := true, children := List.replicate n none,
        childProbs := nd.childProbs, sizeEstimate := some (n : ℚ) }
    if 0 < ws.length then
      let total : ℚ := (ws.map (fun w => (w : ℚ))).sum
      if (∀ w ∈ ws, 0 ≤ w) ∧ 0 < total then
        let cw : List ℚ :=
          match ws.map (fun w => (w : ℚ)) with
          | [] => []
          | w0 :: rest => (w0 / total) :: rest
        .ok { base with childProbs := normalizeProbs cw }
      else .error .ub
    else .ok base

/-- Node::weight(i): the i-th entry of ChildSampler.probabilities() whenever
that list is nonempty (it always is, see freshWNode), else 1/n.  An index
beyond the list is an out-of-bounds vector read (undefined). -/
def WNode.weight (nd : WNode) (i : Nat) : Except Err ℚ :=
  if ¬ nd.visited then .error .assertFail
  else if 0 < nd.childProbs.length then
    match nd.childProbs[i]? with
    | some p => .ok p
    | none => .error .ub
  else .ok (1 / (nd.children.length : ℚ))

/-- State of a WeightedSamplerGuide together with its live chooser's trail:
the node store (index 0 is the root) and the ordered trail of visited nodes,
deepest last. -/
structure WState where
  store : List WNode
  trail : List Nat
  rng : Rng

/-- The state directly after WeightedSamplerGuide construction plus
makeChooser: a fresh root node, with the root pushed onto the trail by the
chooser's constructor. -/
def freshWState (r : Rng) : WState := ⟨[freshWNode], [0], r⟩

/-- Overwrite child slot of a stored node. -/
def setWChild (store : List WNode) (pid slot : Nat) (v : Option Nat) : List WNode :=
  match store[pid]? with
  | none => store
  | some nd => store.set pid { nd with children := nd.children.set slot v }

/-- The per-call reweighting pass of WeightedSamplerChooser::choose: weight 0
for a null child, else the child's size estimate times current->weight(i).
Reading the size estimate of a node that was never visited reads an
uninitialised double (undefined). -/
def reweightsAux (store : List WNode) (nd : WNode) :
    List (Option Nat) → Nat → Except Err (List ℚ)
  | [], _ => .ok []
  | slot :: rest, i =>
    match slot with
    | none => (reweightsAux store nd rest (i + 1)).map (fun l => 0 :: l)
    | some cid =>
      match store[cid]? with
      | none => .error .ub
      | some child =>
        match child.sizeEstimate with
        | none => .error .ub
        | some se =>
          match nd.weight i with
          | .error e => .error e
          | .ok w => (reweightsAux store nd rest (i + 1)).map (fun l => se * w :: l)

/-- The full reweighting vector over the current node's children. -/
def reweights (store : List WNode) (nd : WNode) : Except Err (List ℚ) :=
  reweightsAux store nd nd.children 0

/-- WeightedSamplerChooser::choose(Choices, Weights).  Visit the node at the
back of the trail; draw an initial sample (from
uniform_int_distribution<long>(0, Choices-1) when
ChildSampler.probabilities() is empty — which never happens — else from the
stored sampler); keep it if it lands on a null child, otherwise redraw from
the reweighted distribution; materialise the chosen child if needed; push it
onto the trail. -/
def samplerChoose (st : WState) (n : Nat) (ws : List ℤ) : Except Err (Nat × WState) :=
  match st.trail.getLast? with
  | none => .error .ub
  | some cur =>
    match st.store[cur]? with
    | none => .error .ub
    | some nd0 =>
      match nd0.visit n ws with
      | .error e => .error e
      | .ok nd =>
        let store1 := st.store.set cur nd
        let draw0 : Except Err (Nat × Rng) :=
          if nd.childProbs.length = 0 then
            match uniformIntDraw 0 ((n : ℤ) - 1) st.rng.peek with
            | some k => .ok (k.toNat, st.rng.next)
            | none => .error .ub
          else
            match discreteDrawQ nd.childProbs st.rng.peek with
            | some k => .ok (k, st.rng.next)
            | none => .error .ub
        match draw0 with
        | .error e => .error e
        | .ok (k0, rng1) =>
          match nd.children[k0]? with
          | none => .error .ub
          | some slot0 =>
            let draw1 : Except Err (Nat × Rng) :=
              match slot0 with
              | none => .ok (k0, rng1)
              | some _ =>
                match reweights store1 nd with
                | .error e => .error e
                | .ok rws =>
                  match discreteDrawQ rws rng1.peek with
                  | some k => .ok (k, rng1.next)
                  | none => .error .ub
            match draw1 with
            | .error e => .error e
            | .ok (k, rng2) =>
              match nd.children[k]? with
              | none => .error .ub
              | some (some cid) => .ok (k, ⟨store1, st.trail ++ [cid], rng2⟩)
              | some none =>
                let cid := store1.length
                .ok (k, ⟨setWChild store1 cur k (some cid) ++ [freshWNode],
                         st.trail ++ [cid], rng2⟩)

/-- WeightedSamplerChooser::chooseUnimportant: a full-width draw; nothing but
the PRNG cursor moves. -/
def samplerChooseUnimportant (st : WState) : ℤ × WState :=
  ((unimportantDraw st.rng).1, ⟨st.store, st.trail, (unimportantDraw st.rng).2⟩)

/-- One step of the destructor's collapse loop for a non-deepest trail node:
accumulate occupied, evaluating last->weight(i) for every index i (the C++
loop computes the weight before testing the child pointer) and reading each
non-null child's size estimate (the unused total accumulator), then set the
node's size estimate to children.size / occupied.  A zero occupied would be a
double division by zero (the rational model treats it as an error). -/
def occupiedAux (store : List WNode) (nd : WNode) :
    List (Option Nat) → Nat → Except Err ℚ
  | [], _ => .ok 0
  | slot :: rest, i =>
    match nd.weight i with
    | .error e => .error e
    | .ok w =>
      match slot with
      | none => occupiedAux store nd rest (i + 1)
      | some cid =>
        match store[cid]? with
        | none => .error .ub
        | some child =>
          match child.sizeEstimate with
          | none => .error .ub
          | some _ => (occupiedAux store nd rest (i + 1)).map (fun acc => w + acc)

/-- The occupied sum of the destructor loop over a node's children. -/
def occupiedOf (store : List WNode) (nd : WNode) : Except Err ℚ :=
  occupiedAux store nd nd.children 0

/-- The destructor's update of one remaining trail node. -/
def samplerDisposeStep (store : List WNode) (id : Nat) : Except Err (List WNode) :=
  match store[id]? with
  | none => .error .ub
  | some nd =>
    match occupiedOf store nd with
    | .error e => .error e
    | .ok occ =>
      if occ = 0 then .error .ub
      else .ok (store.set id { nd with sizeEstimate := some ((nd.children.length : ℚ) / occ) })

/-- Fold the destructor step over the remaining trail nodes, deepest first. -/
def collapseRev (store : List WNode) : List Nat → Except Err (List WNode)
  | [] => .ok store
  | id :: rest =>
    match samplerDisposeStep store id with
    | .error e => .error e
    | .ok st' => collapseRev st' rest

/-- The WeightedSamplerChooser destructor: set the deepest trail node's size
estimate to 1 and pop it, then collapse the remaining trail deepest-first;
the trail is empty afterwards. -/
def samplerDispose (st : WState) : Except Err WState :=
  match st.trail.getLast? with
  | none => .error .ub
  | some dpId =>
    match st.store[dpId]? with
    | none => .error .ub
    | some dnd =>
      let store0 := st.store.set dpId { dnd with sizeEstimate := some 1 }
      match collapseRev store0 st.trail.dropLast.reverse with
      | .error e => .error e
      | .ok store1 => .ok ⟨store1, [], st.rng⟩

----------------------------------------------------------------------------
-- BFSGuide / BFSChooser
----------------------------------------------------------------------------

/-- A BFSGuide::Node: back-link to the parent (none while the pointer is
still uninitialised, as for the root and for the leaf markers the chooser
destructor allocates) and the ordered child slots holding store indices. -/
structure BNode where
  parent : Option Nat
  children : List (Option Nat)
deriving DecidableEq, Repr

/-- Modelled from the spec: the frontier priority queue of priq.h, which the
header includes but which is not among this repository's sources.  Spec §4.5:
insert(node, level) and removeHead; removed items come out in non-decreasing
level and FIFO within a level.  The queue is modelled as the list of live
entries in insertion order; removeHead removes the earliest-inserted entry of
minimal level.  An entry is a store index paired with its level. -/
def priqInsert (q : List (Nat × Nat)) (nd lvl : Nat) : List (Nat × Nat) :=
  q ++ [(nd, lvl)]

/-- Modelled from the spec: the minimal level present in the queue. -/
def minLevel : List (Nat × Nat) → Option Nat
  | [] => none
  | e :: q =>
    match minLevel q with
    | none => some e.2
    | some m => some (Nat.min e.2 m)

/-- Modelled from the spec: remove the earliest entry having level m. -/
def removeAtLevel (m : Nat) : List (Nat × Nat) → Option ((Nat × Nat) × List (Nat × Nat))
  | [] => none
  | e :: q =>
    if e.2 = m then some (e, q)
    else (removeAtLevel m q).map (fun x => (x.1, e :: x.2))

/-- Modelled from the spec: removeHead yields the earliest-inserted entry of
minimal level, or nothing when the queue is empty. -/
def priqRemoveHead (q : List (Nat × Nat)) : Option ((Nat × Nat) × List (Nat × Nat)) :=
  match minLevel q with
  | none => none
  | some m => removeAtLevel m q

/-- The BFSGuide state: node store (index 0 is the root), TotalNodes counter,
the frontier queue, MaxSavedLevel (a long initialised to -1), the Choosing
and Started flags, and the PRNG. -/
structure BfsState where
  store : List BNode
  totalNodes : Nat
  pending : List (Nat × Nat)
  maxSavedLevel : ℤ
  choosing : Bool
  started : Bool
  rng : Rng

/-- The BFSChooser state: Current node, LastChoice, Level, and the
SavedChoices vector (popped from the back). -/
structure BfsChooser where
  current : Nat
  lastChoice : Nat
  level : Nat
  savedChoices : List Nat
deriving DecidableEq, Repr

/-- BFSGuide::BFSGuide(Seed): a root node whose children vector has size 1;
TotalNodes starts at 0 (the root allocation is not counted). -/
def freshBfs (r : Rng) : BfsState :=
  ⟨[⟨none, [none]⟩], 0, [], -1, false, false, r⟩

/-- The chooser state set up by BFSChooser::BFSChooser. -/
def initChooser : BfsChooser := ⟨0, 0, 0, []⟩

/-- Overwrite a child slot of a stored node. -/
def setChild (store : List BNode) (pid slot : Nat) (v : Option Nat) : List BNode :=
  match store[pid]? with
  | none => store
  | some nd => store.set pid ⟨nd.parent, nd.children.set slot v⟩

/-- BFSChooser::chooseInternal(Choices, randomChoice).  At an existing child
node the arity must match (else the exit(-1) diagnostic) and the next saved
choice is popped; at a null slot a node of the requested arity is allocated
and linked, a random choice is drawn via the supplied fallback, and the new
node joins the frontier queue when Choices > 1. -/
def chooseInternal (g : BfsState) (c : BfsChooser) (n : Nat)
    (fb : Rng → Option (Nat × Rng)) : Except Err (Nat × BfsState × BfsChooser) :=
  if ¬ g.choosing then .error .assertFail
  else
    match g.store[c.current]? with
    | none => .error .ub
    | some cur =>
      match cur.children[c.lastChoice]? with
      | none => .error .ub
      | some (some nid) =>
        match g.store[nid]? with
        | none => .error .ub
        | some nd =>
          if n ≠ nd.children.length then .error .arityMismatch
          else
            match c.savedChoices.getLast? with
            | none => .error .assertFail
            | some choice =>
              .ok (choice, g,
                   ⟨nid, choice, c.level + 1, c.savedChoices.dropLast⟩)
      | some none =>
        if c.savedChoices ≠ [] then .error .assertFail
        else
          let nid := g.store.length
          let store1 := setChild g.store c.current c.lastChoice (some nid) ++
            [⟨some c.current, List.replicate n none⟩]
          match fb g.rng with
          | none => .error .ub
          | some (k, rng1) =>
            let pending1 := if 1 < n then priqInsert g.pending nid c.level else g.pending
            .ok (k,
                 { g with store := store1, totalNodes := g.totalNodes + 1,
                          pending := pending1, rng := rng1 },
                 ⟨nid, k, c.level + 1, c.savedChoices⟩)

/-- The fallback BFSChooser::choose supplies: a draw from
uniform_int_distribution<int> Dist(0, Choices - 1), with the long bound
narrowed to int. -/
def bfsUniformFallback (n : Nat) (g : Rng) : Option (Nat × Rng) :=
  match uniformIntDraw 0 (toInt32 ((n : ℤ) - 1)) g.peek with
  | some k => some (k.toNat, g.next)
  | none => none

/-- The fallback BFSChooser::chooseWeighted supplies: a
discrete_distribution draw over the given weights. -/
def bfsWeightedFallback (ws : List ℤ) (g : Rng) : Option (Nat × Rng) :=
  (discreteDraw ws g.peek).map (fun k => (k, g.next))

/-- BFSChooser::choose(Choices). -/
def bfsChoose (g : BfsState) (c : BfsChooser) (n : Nat) :
    Except Err (Nat × BfsState × BfsChooser) :=
  chooseInternal g c n (bfsUniformFallback n)

/-- BFSChooser::chooseWeighted(Probs). -/
def bfsChooseWeighted (g : BfsState) (c : BfsChooser) (ws : List ℤ) :
    Except Err (Nat × BfsState × BfsChooser) :=
  chooseInternal g c ws.length (bfsWeightedFallback ws)

/-- BFSChooser::chooseUnimportant: a full-width draw; only the PRNG moves. -/
def bfsChooseUnimportant (g : BfsState) (c : BfsChooser) :
    ℤ × BfsState × BfsChooser :=
  ((unimportantDraw g.rng).1, { g with rng := (unimportantDraw g.rng).2 }, c)

/-- BFSChooser::~BFSChooser: SavedChoices must be empty; ensure the node at
Current.children[LastChoice] exists, allocating a leaf marker (empty children
vector, parent pointer left unset) if not; clear Choosing. -/
def disposeChooser (g : BfsState) (c : BfsChooser) : Except Err BfsState :=
  if c.savedChoices ≠ [] then .error .assertFail
  else
    match g.store[c.current]? with
    | none => .error .ub
    | some cur =>
      match cur.children[c.lastChoice]? with
      | none => .error .ub
      | some (some _) => .ok { g with choosing := false }
      | some none =>
        .ok { g with
                store := setChild g.store c.current c.lastChoice (some g.store.length) ++
                  [⟨none, []⟩],
                totalNodes := g.totalNodes + 1,
                choosing := false }

/-- The scan over the popped target node's children in BFSGuide::makeChooser:
the forward loop counts the null slots in NumUntaken and overwrites Next at
every null slot, so Next ends at the last (highest) untaken index. -/
def scanUntakenAux : List (Option Nat) → Nat → Nat → Option Nat → Nat × Option Nat
  | [], _, cnt, nxt => (cnt, nxt)
  | none :: rest, i, cnt, _ => scanUntakenAux rest (i + 1) (cnt + 1) (some i)
  | some _ :: rest, i, cnt, nxt => scanUntakenAux rest (i + 1) cnt nxt

/-- NumUntaken and Next after the target-node scan. -/
def scanUntaken (cs : List (Option Nat)) : Nat × Option Nat :=
  scanUntakenAux cs 0 0 none

/-- The scan over a node's children above the target: the first index whose
slot holds the child we came up from. -/
def findChildIdx (cs : List (Option Nat)) (cid : Nat) : Option Nat :=
  cs.findIdx? (fun s => s == some cid)

/-- The upward walk of BFSGuide::makeChooser above the target node: starting
from the node below, repeatedly move to the parent, appending the child index
taken there, until the parent is the root.  The C++ walks raw pointers; the
model carries fuel, whose exhaustion (impossible in well-formed states) is an
error. -/
def walkAncestors (store : List BNode) : Nat → Nat → List Nat → Option (List Nat)
  | 0, _, _ => none
  | fuel + 1, nid, saved =>
    match store[nid]? with
    | none => none
    | some nd =>
      match nd.parent with
      | none => none
      | some p =>
        if p = 0 then some saved
        else
          match store[p]? with
          | none => none
          | some pnd =>
            match findChildIdx pnd.children nid with
            | none => none
            | some i => walkAncestors store fuel p (saved ++ [i])

/-- BFSGuide::makeChooser.  First call: bootstrap chooser.  Later calls: pop
the head of the frontier queue (empty queue means the decision space is
exhausted and the absent value is returned); check the popped level against
MaxSavedLevel and record it; scan the target for an untaken branch,
re-inserting the node when more than one remains; walk up to the root
recording the saved choices (target's choice first, then one per ancestor
edge). -/
def makeChooser (g : BfsState) : Except Err (Option (BfsState × BfsChooser)) :=
  if g.choosing then .error .assertFail
  else if ¬ g.started then
    .ok (some ({ g with started := true, choosing := true }, initChooser))
  else
    match priqRemoveHead g.pending with
    | none => .ok none
    | some ((nid, lvl), pending1) =>
      if (lvl : ℤ) < g.maxSavedLevel then .error .assertFail
      else
        match g.store[nid]? with
        | none => .error .ub
        | some nd =>
          match scanUntaken nd.children with
          | (_, none) => .error .assertFail
          | (cnt, some nxt) =>
            let pending2 := if 1 < cnt then priqInsert pending1 nid lvl else pending1
            match walkAncestors g.store g.store.length nid [nxt] with
            | none => .error .ub
            | some saved =>
              .ok (some ({ g with pending := pending2, maxSavedLevel := (lvl : ℤ),
                                  choosing := true },
                         ⟨0, 0, 0, saved⟩))

----------------------------------------------------------------------------
-- Generators and the BFS driver protocol
----------------------------------------------------------------------------

/-- A contract-respecting deterministic generator is determined by its
decision tree: at each point it either finishes (leaf) or calls choose(n) and
branches on the result (node with n subtrees). -/
inductive DTree where
  | leaf : DTree
  | node : List DTree → DTree

mutual

/-- Number of leaves of a decision tree. -/
def DTree.leaves : DTree → Nat
  | .leaf => 1
  | .node cs => leavesL cs

/-- Sum of the leaf counts of a forest. -/
def leavesL : List DTree → Nat
  | [] => 0
  | t :: ts => DTree.leaves t + leavesL ts

end

/-- The caller contract for generators, from the spec's chooser signature
choose(n: int>0): every arity is positive and fits in a positive int, so the
narrowed bound of the uniform fallback stays valid. -/
inductive Respectful : DTree → Prop where
  | leaf : Respectful .leaf
  | node (cs : List DTree) : 1 ≤ cs.length → cs.length ≤ 2 ^ 31 →
      (∀ t ∈ cs, Respectful t) → Respectful (.node cs)

/-- A root-to-leaf path of a decision tree, as the list of choices made. -/
inductive LeafPath : DTree → List Nat → Prop where
  | leaf : LeafPath .leaf []
  | node {cs : List DTree} {i : Nat} {t : DTree} {p : List Nat} :
      cs[i]? = some t → LeafPath t p → LeafPath (.node cs) (i :: p)

/-- Run one generator traversal against a live BFS chooser: a leaf finishes;
a node calls choose over its arity and descends into the chosen subtree. -/
def runGen (t : DTree) (g : BfsState) (c : BfsChooser) :
    Except Err (BfsState × BfsChooser) :=
  match t with
  | .leaf => .ok (g, c)
  | .node cs =>
    match bfsChoose g c cs.length with
    | .error e => .error e
    | .ok (k, g1, c1) =>
      match h : cs[k]? with
      | none => .error .ub
      | some t1 => runGen t1 g1 c1
termination_by sizeOf t
decreasing_by
  have hm : t1 ∈ cs := List.getElem?_mem h
  have := List.sizeOf_lt_of_mem hm
  simp only [DTree.node.sizeOf_spec]
  omega

/-- One complete traversal: makeChooser, run the generator, dispose the
chooser.  Returns none when makeChooser signals exhaustion. -/
def traverseOnce (t : DTree) (g : BfsState) : Except Err (Option BfsState) :=
  match makeChooser g with
  | .error e => .error e
  | .ok none => .ok none
  | .ok (some (g1, c)) =>
    match runGen t g1 c with
    | .error e => .error e
    | .ok (g2, c2) =>
      match disposeChooser g2 c2 with
      | .error e => .error e
      | .ok g3 => .ok (some g3)

/-- Iterate complete traversals; an exhausted guide stays put. -/
def traverseN (t : DTree) : Nat → BfsState → Except Err BfsState
  | 0, g => .ok g
  | k + 1, g =>
    match traverseOnce t g with
    | .error e => .error e
    | .ok none => .ok g
    | .ok (some g1) => traverseN t k g1

/-- Drive the guide with the given fuel, counting the successful makeChooser
calls before the first absent result. -/
def drive (t : DTree) : Nat → BfsState → Except Err (Nat × BfsState)
  | 0, _ => .error .ub
  | fuel + 1, g =>
    match traverseOnce t g with
    | .error e => .error e
    | .ok none => .ok (0, g)
    | .ok (some g1) =>
      match drive t fuel g1 with
      | .error e => .error e
      | .ok (cnt, gf) => .ok (cnt + 1, gf)

/-- Follow a list of child choices through the store from a given node. -/
def followPath (store : List BNode) : Nat → List Nat → Option Nat
  | nid, [] => some nid
  | nid, i :: rest =>
    match store[nid]? with
    | none => none
    | some nd =>
      match nd.children[i]? with
      | none => none
      | some none => none
      | some (some cid) => followPath store cid rest

/-- Bounded reachability through child slots: node i is reachable from the
root within the given fuel. -/
def reachB (store : List BNode) : Nat → Nat → Bool
  | 0, i => i == 0
  | fuel + 1, i =>
    i == 0 ||
      (List.range store.length).any (fun p =>
        ((store.getD p ⟨none, []⟩).children.contains (some i)) && reachB store fuel p)

/-- The number of distinct store nodes reachable from the root. -/
def reachCount (store : List BNode) : Nat :=
  ((List.range store.length).filter (fun i => reachB store store.length i)).length

----------------------------------------------------------------------------
-- Invariant layer for the BFS correctness proofs
----------------------------------------------------------------------------

/-- There is an edge from store node p, child slot i, to store node c. -/
def Edge (store : List BNode) (p i c : Nat) : Prop :=
  ∃ nd, store[p]? = some nd ∧ nd.children[i]? = some (some c)

/-- Store node id faithfully materialises the decision subtree u: a leaf of
the generator corresponds to a childless marker node, and a choose point of
arity n corresponds to a node with n child slots whose filled slots again
materialise the respective subtrees. -/
inductive Rep (store : List BNode) : Nat → DTree → Prop where
  | leaf {id : Nat} {nd : BNode} :
      store[id]? = some nd → nd.children = [] → Rep store id .leaf
  | node {id : Nat} {nd : BNode} {cs : List DTree} :
      store[id]? = some nd → nd.children.length = cs.length →
      (∀ (i cid : Nat) (u : DTree), cs[i]? = some u →
        nd.children[i]? = some (some cid) → Rep store cid u) →
      Rep store id (.node cs)

/-- Transitive-reflexive closure of the child-slot edges: b lies in the
subtree rooted at a. -/
inductive InClosure (store : List BNode) : Nat → Nat → Prop where
  | refl (a : Nat) : InClosure store a a
  | step {a i b c : Nat} : Edge store a i b → InClosure store b c → InClosure store a c

mutual

/-- Number of fully materialised root-to-leaf paths of subtree u below store
node id (the number of leaf markers the walk can reach). -/
def done (store : List BNode) : Nat → DTree → Nat
  | _, .leaf => 1
  | id, .node cs =>
    doneL store (match store[id]? with | some nd => nd.children | none => []) cs

/-- Sum of done over the filled slots of a children vector, paired with the
corresponding decision subtrees. -/
def doneL (store : List BNode) : List (Option Nat) → List DTree → Nat
  | _, [] => 0
  | [], _ :: _ => 0
  | none :: ss, _ :: ts => doneL store ss ts
  | some c :: ss, u :: ts => done store c u + doneL store ss ts

end

/-- Contribution of one position to doneL. -/
def slotContrib (store : List BNode) (sl : List (Option Nat)) (cs : List DTree)
    (j : Nat) : Nat :=
  match sl[j]?, cs[j]? with
  | some (some c), some u => done store c u
  | _, _ => 0

/-- The number of materialised paths visible from the root: the root's single
child slot leads to the node representing the whole tree. -/
def doneG (g : BfsState) (t : DTree) : Nat :=
  match g.store[0]? with
  | some rd =>
    match rd.children[0]? with
    | some (some c) => done g.store c t
    | _ => 0
  | none => 0

/-- Store-structure invariant of the BFS guide: a one-slot root; edges go
from lower to higher (allocation-ordered) indices and stay in range; every
node has at most one incoming edge; interior nodes carry a correct parent
back-link; every non-root node has an incoming edge. -/
structure SInv (store : List BNode) : Prop where
  root : ∃ rd, store[0]? = some rd ∧ rd.parent = none ∧ rd.children.length = 1
  incr : ∀ p i c, Edge store p i c → p < c ∧ c < store.length
  uniq : ∀ p i c p2 i2, Edge store p i c → Edge store p2 i2 c → p = p2 ∧ i = i2
  par : ∀ p i c nd, Edge store p i c → store[c]? = some nd →
    1 ≤ nd.children.length → nd.parent = some p
  link : ∀ c, 1 ≤ c → c < store.length → ∃ p i, Edge store p i c

/-- Edge-monotone store extension: every edge survives. -/
def Ext (s s2 : List BNode) : Prop :=
  s.length ≤ s2.length ∧ ∀ p i c, Edge s p i c → Edge s2 p i c

/-- Full guide invariant between traversals, for generator tree t. -/
structure Inv (t : DTree) (g : BfsState) : Prop where
  sinv : SInv g.store
  started : g.started = true
  choosing : g.choosing = false
  rep : ∃ r1, Edge g.store 0 0 r1 ∧ Rep g.store r1 t
  small : ∀ (id i : Nat) (nd : BNode), g.store[id]? = some nd →
    nd.children.length ≤ 1 → nd.children[i]? = some none → False
  qPos : ∀ e ∈ g.pending, ∃ h, followPath g.store 0 (0 :: h) = some e.1 ∧
    h.length = e.2
  qUntaken : ∀ e ∈ g.pending, ∃ nd : BNode, g.store[e.1]? = some nd ∧
    2 ≤ nd.children.length ∧ ∃ i : Nat, nd.children[i]? = some none
  qComplete : ∀ (id : Nat) (nd : BNode), g.store[id]? = some nd →
    2 ≤ nd.children.length → (∃ i : Nat, nd.children[i]? = some none) →
    ∃ lvl, (id, lvl) ∈ g.pending
  qNodup : (g.pending.map Prod.fst).Nodup
  qLvl : ∀ e ∈ g.pending, g.maxSavedLevel ≤ (e.2 : ℤ)
  count : g.totalNodes + 1 = g.store.length

/-- A recorded descent through the materialised tree: from store node id
representing subtree u, following the listed choices, one reaches store node
tgt representing subtree ut. -/
inductive Descend (S : List BNode) : Nat → DTree → List Nat → Nat → DTree → Prop where
  | nil (id : Nat) (u : DTree) : Descend S id u [] id u
  | cons {id a c tgt : Nat} {h2 : List Nat} {cs : List DTree} {u2 ut : DTree} :
      Edge S id a c → cs[a]? = some u2 → Descend S c u2 h2 tgt ut →
      Descend S id (.node cs) (a :: h2) tgt ut

/-- No child slot anywhere in the store is still untaken. -/
def NoNone (S : List BNode) : Prop :=
  ∀ (id i : Nat) (nd : BNode), S[id]? = some nd → nd.children[i]? = some none → False

/-- Number of untaken slots of a children vector. -/
def noneCount (cs : List (Option Nat)) : Nat :=
  cs.countP (fun s => s == none)

/-- What one generator run (the tail of chooseInternal calls past the
frontier, followed by the chooser destructor) does to the guide, relative to
the entry position: the chooser c stands at the untaken slot
(c.current, c.lastChoice) at depth c.level, and u is the decision subtree the
generator still has to run.  gf is the final guide and qnew the queue entries
the run appended. -/
structure ExploreOut (g : BfsState) (c : BfsChooser) (u : DTree) (gf : BfsState)
    (qnew : List (Nat × Nat)) : Prop where
  agree : ∀ x : Nat, x < g.store.length → x ≠ c.current → gf.store[x]? = g.store[x]?
  curSet : ∀ nd : BNode, g.store[c.current]? = some nd →
    gf.store[c.current]? = some ⟨nd.parent, nd.children.set c.lastChoice (some g.store.length)⟩
  grow : g.store.length < gf.store.length
  rep : Rep gf.store g.store.length u
  one : done gf.store g.store.length u = 1
  sinv : SInv gf.store
  ext : Ext g.store gf.store
  count : gf.totalNodes + 1 = gf.store.length
  choosing : gf.choosing = false
  started : gf.started = g.started
  msl : gf.maxSavedLevel = g.maxSavedLevel
  pend : gf.pending = g.pending ++ qnew
  qbounds : ∀ e ∈ qnew, g.store.length ≤ e.1 ∧ e.1 < gf.store.length ∧ c.level ≤ e.2
  qpath : ∀ e ∈ qnew, ∃ h2, followPath gf.store 0 (0 :: h2) = some e.1 ∧ h2.length = e.2
  quntaken : ∀ e ∈ qnew, ∃ nd : BNode, gf.store[e.1]? = some nd ∧
    2 ≤ nd.children.length ∧ ∃ i : Nat, nd.children[i]? = some none
  qcomplete : ∀ (x : Nat) (nd : BNode), g.store.length ≤ x → gf.store[x]? = some nd →
    (∃ i : Nat, nd.children[i]? = some none) → ∃ lvl, (x, lvl) ∈ qnew
  qnodup : (qnew.map Prod.fst).Nodup
  small2 : ∀ (x i : Nat) (nd : BNode), g.store.length ≤ x → gf.store[x]? = some nd →
    nd.children.length ≤ 1 → nd.children[i]? = some none → False

----------------------------------------------------------------------------
-- Concrete states used by witnesses and counterexamples
----------------------------------------------------------------------------

/-- A concrete guide store whose frontier holds one node with two untaken
child slots: the root's single child (store index 1, level 0). -/
def c7Store : List BNode := [⟨none, [some 1]⟩, ⟨some 0, [none, none]⟩]

/-- The guide about to plan a traversal from that node. -/
def c7State : BfsState := ⟨c7Store, 1, [(1, 0)], -1, false, true, ⟨fun _ => 0, 0⟩⟩

/-- An already-visited BFS tree node of arity 1, sitting in the root's child
slot. -/
def c3BfsStore : List BNode := [⟨none, [some 1]⟩, ⟨some 0, [none]⟩]

/-- A live BFS chooser about to re-enter that node. -/
def c3BfsState : BfsState := ⟨c3BfsStore, 1, [], -1, true, true, ⟨fun _ => 0, 0⟩⟩

/-- A sampler store whose root has been visited with arity 2. -/
def c3WNode : WNode := ⟨true, [none, none], [1], some 2⟩

/-- The sampler guide positioned at that node. -/
def c3WState : WState := ⟨[c3WNode], [0], ⟨fun _ => 0, 0⟩⟩

/-- The guide state left behind by a bootstrap traversal that made no
choices: the destructor has allocated a single leaf marker in the root's one
child slot. -/
def bfsAfterEmptyRun (r : Rng) : BfsState :=
  ⟨[⟨none, [some 1]⟩, ⟨none, []⟩], 1, [], -1, false, true, r⟩

----------------------------------------------------------------------------
-- Supporting lemmas and claim theorems
----------------------------------------------------------------------------

/-- Characterisation of the target-node scan: a returned Next is either the
carried accumulator or the absolute position of a null slot, and it bounds
every null position from above. -/
theorem scanUntakenAux_spec (cs : List (Option Nat)) :
    ∀ (i cnt : Nat) (nxt : Option Nat) (j : Nat),
      (scanUntakenAux cs i cnt nxt).2 = some j →
      (∀ p, cs[p]? = some none → i + p ≤ j) ∧
      (nxt = some j ∨ ∃ p, cs[p]? = some none ∧ i + p = j) := by
  induction cs with
  | nil =>
    intro i cnt nxt j h
    refine ⟨fun p hp => by simp at hp, Or.inl ?_⟩
    simpa [scanUntakenAux] using h
  | cons slot rest ih =>
    intro i cnt nxt j h
    match slot with
    | none =>
      have h2 := ih (i + 1) (cnt + 1) (some i) j (by simpa [scanUntakenAux] using h)
      constructor
      · intro p hp
        match p with
        | 0 =>
          rcases h2.2 with he | ⟨q, _, hq⟩
          · have : i = j := by simpa using he
            omega
          · omega
        | q + 1 =>
          have := h2.1 q (by simpa using hp)
          omega
      · rcases h2.2 with he | ⟨q, hq1, hq2⟩
        · exact Or.inr ⟨0, by simpa using he.symm ▸ rfl, by
            have : i = j := by simpa using he
            omega⟩
        · exact Or.inr ⟨q + 1, by simpa using hq1, by omega⟩
    | some x =>
      have h2 := ih (i + 1) cnt nxt j (by simpa [scanUntakenAux] using h)
      constructor
      · intro p hp
        match p with
        | 0 => simp at hp
        | q + 1 =>
          have := h2.1 q (by simpa using hp)
          omega
      · rcases h2.2 with he | ⟨q, hq1, hq2⟩
        · exact Or.inl he
        · exact Or.inr ⟨q + 1, by simpa using hq1, by omega⟩

/-- C7 (amended): whenever the target-node scan of BFSGuide::makeChooser
returns a choice (in particular when two or more child slots are untaken),
that choice is an untaken slot and it is the highest untaken index, not the
lowest. -/
theorem c7_highest_untaken (cs : List (Option Nat)) (j : Nat)
    (hj : (scanUntaken cs).2 = some j) :
    cs[j]? = some none ∧ ∀ i, cs[i]? = some none → i ≤ j := by
  have h := scanUntakenAux_spec cs 0 0 none j hj
  rcases h.2 with he | ⟨p, hp1, hp2⟩
  · cases he
  · refine ⟨by simpa [show p = j by omega] using hp1, fun i hi => by simpa using h.1 i hi⟩

/-- Witness for c7_highest_untaken at the two-slot node with both children
untaken: the scan returns index 1, the highest. -/
theorem c7_highest_untaken_witness :
    ([none, none] : List (Option Nat))[1]? = some none ∧
      ∀ i, ([none, none] : List (Option Nat))[i]? = some none → i ≤ 1 :=
  c7_highest_untaken [none, none] 1 rfl

/-- C7 (counterexample): planning a traversal from a frontier node whose
slots 0 and 1 are both untaken records saved choice 1 at the target — the
highest untaken index — although the lowest untaken index is 0. -/
theorem c7_counterexample :
    (match makeChooser c7State with
     | .ok (some (_, c)) => c.savedChoices
     | _ => []) = [1] ∧
    (c7Store.getD 1 ⟨none, []⟩).children = [none, none] ∧ (1 : Nat) ≠ 0 :=
  ⟨rfl, rfl, by decide⟩

/-- C1: under the caller contract n > 0 alone, choose(n) can return values
outside the range: BFSChooser::choose and DefaultChooser::choose build
uniform_int_distribution<int> Dist(0, Choices - 1), narrowing the long bound
to int, so at n = 2^31 + 1 the upper bound becomes the negative int -2^31 and
the distribution's precondition a ≤ b is violated (undefined behaviour, no
in-range result).  The sampler's own chooser uses
uniform_int_distribution<long> for the same draw, showing the narrowing is a
slip. -/
theorem c1_narrowed_bound_breaks_range :
    defaultChoose (2 ^ 31 + 1) ⟨fun _ => 0, 0⟩ = none ∧
    bfsUniformFallback (2 ^ 31 + 1) ⟨fun _ => 0, 0⟩ = none ∧
    toInt32 (2 ^ 31 + 1 - 1) = -2 ^ 31 := by
  refine ⟨rfl, rfl, by decide⟩

/-- C3: calling choose or chooseWeighted at a previously visited tree node
with an arity differing from the recorded one is fatal for both tree guides:
BFSChooser::chooseInternal takes the exit(-1) diagnostic path, and the
sampler's Node::visit fails its arity assert, so neither call returns a
value. -/
theorem c3_arity_mismatch_fatal :
    (∀ (g : BfsState) (c : BfsChooser) (n : Nat) (fb : Rng → Option (Nat × Rng))
       (cur nd : BNode) (nid : Nat),
       g.choosing = true →
       g.store[c.current]? = some cur →
       cur.children[c.lastChoice]? = some (some nid) →
       g.store[nid]? = some nd →
       n ≠ nd.children.length →
       chooseInternal g c n fb = .error .arityMismatch) ∧
    (∀ (st : WState) (n : Nat) (ws : List ℤ) (cur : Nat) (nd : WNode),
       st.trail.getLast? = some cur →
       st.store[cur]? = some nd →
       nd.visited = true →
       (ws.length = 0 ∨ ws.length = n) →
       n ≠ nd.children.length →
       samplerChoose st n ws = .error .assertFail) := by
  constructor
  · intro g c n fb cur nd nid hch h1 h2 h3 hne
    simp only [chooseInternal, hch, h1, h2, h3]
    simp [hne]
  · intro st n ws cur nd hlast hstore hvis hws hne
    have hv : nd.visit n ws = .error .assertFail := by
      simp only [WNode.visit, hvis]
      simp [hws, hne]
    simp only [samplerChoose, hlast, hstore, hv]

/-- Witness for c3_arity_mismatch_fatal: revisiting the arity-1 BFS node with
choose(2) dies on the diagnostic path, and revisiting the arity-2 sampler
node with choose(3) dies on the assert. -/
theorem c3_arity_mismatch_fatal_witness :
    chooseInternal c3BfsState initChooser 2 (fun _ => none) = .error .arityMismatch ∧
    samplerChoose c3WState 3 [] = .error .assertFail :=
  ⟨c3_arity_mismatch_fatal.1 c3BfsState initChooser 2 (fun _ => none) ⟨none, [some 1]⟩
      ⟨some 0, [none]⟩ 1 rfl rfl rfl rfl (by decide),
   c3_arity_mismatch_fatal.2 c3WState 3 [] 0 c3WNode rfl rfl rfl (Or.inl rfl) (by decide)⟩

/-- C4: on a node first visited without explicit weights, Node::weight does
not return 1/n: probabilities() of the default-constructed ChildSampler is
the one-element list holding 1, so weight(0) returns 1 (and weight(1) is an
out-of-bounds read); the 1/n branch is unreachable. -/
theorem c4_weight_without_weights_not_uniform :
    (freshWNode.visit 2 []).map (fun nd => (nd.weight 0, nd.weight 1)) =
      .ok (.ok 1, .error .ub) ∧ (1 : ℚ) ≠ 1 / 2 :=
  ⟨rfl, by norm_num⟩

/-- C5: the initial sample of WeightedSamplerChooser::choose at a node first
visited without weights is not uniform on [0, n): the emptiness test on
probabilities() never fires, so the draw comes from the default-constructed
ChildSampler and is always 0 — here the raw draw 1 yields choice 0, while the
uniform branch would have yielded 1. -/
theorem c5_initial_sample_not_uniform :
    (samplerChoose (freshWState ⟨fun _ => 1, 0⟩) 2 []).map (fun p => p.1) = .ok 0 ∧
    uniformIntDraw 0 (2 - 1) 1 = some 1 :=
  ⟨rfl, rfl⟩

/-- C6: disposing the sampler's chooser after a single unweighted choose(2)
does not perform the claimed size-estimate update: the destructor's loop
evaluates last->weight(1) on the unweighted root, an out-of-bounds read of
the one-element probabilities() vector (undefined behaviour). -/
theorem c6_dispose_hits_oob_weight :
    (samplerChoose (freshWState ⟨fun _ => 0, 0⟩) 2 []).bind (fun p => samplerDispose p.2) =
      .error .ub :=
  rfl

/-- C9: chooseUnimportant is a pure PRNG draw for every chooser: the full
guide state except the PRNG cursor, and the whole chooser state, are returned
unchanged, and the value is a full-width 64-bit integer. -/
theorem c9_chooseUnimportant_frame (g : BfsState) (c : BfsChooser) (w : WState) (r : Rng) :
    bfsChooseUnimportant g c = ((unimportantDraw g.rng).1, { g with rng := g.rng.next }, c) ∧
    samplerChooseUnimportant w = ((unimportantDraw w.rng).1, ⟨w.store, w.trail, w.rng.next⟩) ∧
    defaultChooseUnimportant r = ((unimportantDraw r).1, r.next) ∧
    -(2 : ℤ) ^ 63 ≤ (unimportantDraw g.rng).1 ∧ (unimportantDraw g.rng).1 < 2 ^ 63 := by
  refine ⟨rfl, rfl, rfl, ?_, ?_⟩
  · have h := Int.emod_nonneg (g.rng.peek : ℤ) (by norm_num : ((2 : ℤ) ^ 64) ≠ 0)
    simp only [unimportantDraw]
    omega
  · have h := Int.emod_lt_of_pos (g.rng.peek : ℤ) (by norm_num : (0 : ℤ) < 2 ^ 64)
    simp only [unimportantDraw]
    omega

/-- C10: a bootstrap traversal during which the generator makes no choices
allocates exactly one node — a leaf marker in the root's single child slot,
raising totalNodes from 0 to 1 — inserts nothing into the frontier queue, and
leaves the guide permanently exhausted: every later makeChooser call (and
hence every later traversal attempt, for any generator) returns the absent
value. -/
theorem c10_empty_generator_exhausts (r : Rng) :
    traverseOnce DTree.leaf (freshBfs r) = .ok (some (bfsAfterEmptyRun r)) ∧
    makeChooser (bfsAfterEmptyRun r) = .ok none ∧
    ∀ (t : DTree) (k : Nat), traverseN t k (bfsAfterEmptyRun r) = .ok (bfsAfterEmptyRun r) := by
  refine ⟨?_, rfl, fun t k => ?_⟩
  · simp only [traverseOnce, makeChooser, freshBfs, runGen, disposeChooser, setChild,
      initChooser, bfsAfterEmptyRun]
    rfl
  induction k with
  | zero => rfl
  | succ k ih =>
    have h1 : traverseOnce t (bfsAfterEmptyRun r) = .ok none := rfl
    simp only [traverseN, h1]

/-- C8 (counterexample): after the empty bootstrap traversal the tree has two
reachable nodes (the root and the leaf marker) but totalNodes is 1: the root
allocated by the BFSGuide constructor is never counted. -/
theorem c8_counterexample :
    (bfsAfterEmptyRun ⟨fun _ => 0, 0⟩).totalNodes = 1 ∧
    reachCount (bfsAfterEmptyRun ⟨fun _ => 0, 0⟩).store = 2 ∧ (1 : Nat) ≠ 2 :=
  ⟨rfl, rfl, by decide⟩

----------------------------------------------------------------------------
-- Basic lemmas: leaf counts, done bounds, closure structure
----------------------------------------------------------------------------

/-- A contract-respecting decision tree has at least one leaf. -/
theorem leaves_pos {u : DTree} (h : Respectful u) : 1 ≤ u.leaves := by
  induction h with
  | leaf => simp [DTree.leaves]
  | node cs h1 h2 h3 ih =>
    cases cs with
    | nil => simp at h1
    | cons c rest =>
      have hc := ih c (by simp)
      simp only [DTree.leaves, leavesL]
      omega

mutual

/-- done never exceeds the leaf count. -/
theorem done_le : ∀ (store : List BNode) (id : Nat) (u : DTree),
    done store id u ≤ u.leaves := by
  intro store id u
  match u with
  | .leaf => simp [done, DTree.leaves]
  | .node cs =>
    have h := doneL_le store (match store[id]? with | some nd => nd.children | none => []) cs
    simpa [done, DTree.leaves] using h

/-- doneL never exceeds the forest leaf count. -/
theorem doneL_le : ∀ (store : List BNode) (sl : List (Option Nat)) (cs : List DTree),
    doneL store sl cs ≤ leavesL cs := by
  intro store sl cs
  match sl, cs with
  | _, [] => simp [doneL]
  | [], _ :: _ => simp [doneL]
  | none :: ss, u :: ts =>
    have h := doneL_le store ss ts
    simp only [doneL, leavesL]
    omega
  | some c :: ss, u :: ts =>
    have h1 := done_le store c u
    have h2 := doneL_le store ss ts
    simp only [doneL, leavesL]
    omega

end

/-- Build an edge from its components. -/
theorem edge_of_slot {store : List BNode} {p i c : Nat} {nd : BNode}
    (h1 : store[p]? = some nd) (h2 : nd.children[i]? = some (some c)) :
    Edge store p i c := ⟨nd, h1, h2⟩

/-- Extending a successful path by one edge. -/
theorem followPath_snoc {store : List BNode} :
    ∀ (p : List Nat) {a b c i : Nat}, followPath store a p = some b →
      Edge store b i c → followPath store a (p ++ [i]) = some c := by
  intro p
  induction p with
  | nil =>
    intro a b c i h he
    obtain ⟨nd, h1, h2⟩ := he
    simp only [followPath] at h
    cases h
    simp [followPath, h1, h2]
  | cons x xs ih =>
    intro a b c i h he
    simp only [followPath] at h ⊢
    match hnd : store[a]? with
    | none => simp [hnd] at h
    | some nd =>
      simp only [hnd] at h ⊢
      match hsl : nd.children[x]? with
      | none => simp [hsl] at h
      | some none => simp [hsl] at h
      | some (some cid) =>
        simp only [hsl] at h ⊢
        exact ih h he

/-- A successful path walk witnesses closure membership. -/
theorem followPath_inclosure {store : List BNode} :
    ∀ (p : List Nat) {a b : Nat}, followPath store a p = some b →
      InClosure store a b := by
  intro p
  induction p with
  | nil =>
    intro a b h
    simp only [followPath] at h
    cases h
    exact .refl a
  | cons x xs ih =>
    intro a b h
    simp only [followPath] at h
    match hnd : store[a]? with
    | none => simp [hnd] at h
    | some nd =>
      simp only [hnd] at h
      match hsl : nd.children[x]? with
      | none => simp [hsl] at h
      | some none => simp [hsl] at h
      | some (some cid) =>
        simp only [hsl] at h
        exact .step (edge_of_slot hnd hsl) (ih h)

/-- Closure only moves towards larger allocation indices. -/
theorem inclosure_le {store : List BNode}
    (hincr : ∀ p i c, Edge store p i c → p < c ∧ c < store.length)
    {a b : Nat} (h : InClosure store a b) : a ≤ b := by
  induction h with
  | refl => exact le_rfl
  | step he _ ih => exact le_trans (le_of_lt (hincr _ _ _ he).1) ih

/-- A nonempty successful walk strictly increases the index. -/
theorem followPath_lt {store : List BNode}
    (hincr : ∀ p i c, Edge store p i c → p < c ∧ c < store.length)
    {a b x : Nat} {xs : List Nat} (h : followPath store a (x :: xs) = some b) :
    a < b := by
  simp only [followPath] at h
  match hnd : store[a]? with
  | none => simp [hnd] at h
  | some nd =>
    simp only [hnd] at h
    match hsl : nd.children[x]? with
    | none => simp [hsl] at h
    | some none => simp [hsl] at h
    | some (some cid) =>
      simp only [hsl] at h
      have h1 := (hincr _ _ _ (edge_of_slot hnd hsl)).1
      have h2 := inclosure_le hincr (followPath_inclosure xs h)
      omega

/-- Closure is transitive. -/
theorem inclosure_trans {store : List BNode} {a b c : Nat}
    (h1 : InClosure store a b) (h2 : InClosure store b c) : InClosure store a c := by
  induction h1 with
  | refl => exact h2
  | step he _ ih => exact .step he (ih h2)

/-- With unique incoming edges, a closure chain into d either starts at d or
passes through d's parent. -/
theorem inclosure_stepUp {store : List BNode}
    (huniq : ∀ p i c p2 i2, Edge store p i c → Edge store p2 i2 c → p = p2 ∧ i = i2)
    {d x : Nat} (h : InClosure store x d) :
    ∀ {p j : Nat}, Edge store p j d → x = d ∨ InClosure store x p := by
  induction h with
  | refl =>
    intro p j _
    exact Or.inl rfl
  | step he hbc ih =>
    intro p j hpd
    rcases ih hpd with he2 | hcl
    · subst he2
      obtain ⟨hp, _⟩ := huniq _ _ _ _ _ he hpd
      subst hp
      exact Or.inr (.refl _)
    · exact Or.inr (.step he hcl)

/-- Two ancestors of the same node are comparable in the closure order. -/
theorem inclosure_comparable {store : List BNode}
    (huniq : ∀ p i c p2 i2, Edge store p i c → Edge store p2 i2 c → p = p2 ∧ i = i2)
    {x y tgt : Nat} (hx : InClosure store x tgt) (hy : InClosure store y tgt) :
    InClosure store x y ∨ InClosure store y x := by
  induction hy with
  | refl => exact Or.inl hx
  | step he hd ih =>
    rcases ih hx with h1 | h2
    · rcases inclosure_stepUp huniq h1 he with he2 | hcl
      · subst he2
        exact Or.inr (.step he (.refl _))
      · exact Or.inl hcl
    · exact Or.inr (.step he h2)

/-- A child slot of the target never leads back to the target. -/
theorem child_not_inclosure_self {store : List BNode}
    (hincr : ∀ p i c, Edge store p i c → p < c ∧ c < store.length)
    {tgt i ci : Nat} (he : Edge store tgt i ci) : ¬ InClosure store ci tgt := by
  intro h
  have h1 := inclosure_le hincr h
  have h2 := (hincr _ _ _ he).1
  omega

/-- Distinct child branches of a node have disjoint closures: the sibling of
the branch leading to the target cannot also reach the target. -/
theorem sibling_not_inclosure {store : List BNode}
    (hincr : ∀ p i c, Edge store p i c → p < c ∧ c < store.length)
    (huniq : ∀ p i c p2 i2, Edge store p i c → Edge store p2 i2 c → p = p2 ∧ i = i2)
    {id i a ci ca tgt : Nat} (hei : Edge store id i ci) (hea : Edge store id a ca)
    (hia : i ≠ a) (hca : InClosure store ca tgt) : ¬ InClosure store ci tgt := by
  intro hci
  rcases inclosure_comparable huniq hci hca with h1 | h2
  · rcases inclosure_stepUp huniq h1 hea with he2 | hcl
    · subst he2
      exact hia (huniq _ _ _ _ _ hei hea).2
    · have ha := inclosure_le hincr hcl
      have hb := (hincr _ _ _ hei).1
      omega
  · rcases inclosure_stepUp huniq h2 hei with he2 | hcl
    · subst he2
      exact hia ((huniq _ _ _ _ _ hea hei).2).symm
    · have ha := inclosure_le hincr hcl
      have hb := (hincr _ _ _ hea).1
      omega

----------------------------------------------------------------------------
-- done under store updates
----------------------------------------------------------------------------

/-- doneL over an all-untaken children vector is zero. -/
theorem doneL_replicate (S : List BNode) : ∀ (cs : List DTree) (n : Nat),
    doneL S (List.replicate n none) cs = 0 := by
  intro cs
  induction cs with
  | nil => intro n; simp [doneL]
  | cons u ts ih =>
    intro n
    match n with
    | 0 => simp [doneL]
    | m + 1 => simpa [List.replicate, doneL] using ih m

/-- doneL over an all-untaken vector with one slot set counts just that
branch. -/
theorem doneL_single (S : List BNode) : ∀ (k n : Nat) (cs : List DTree) (u : DTree) (c : Nat),
    cs[k]? = some u → k < n →
    doneL S ((List.replicate n (none : Option Nat)).set k (some c)) cs = done S c u := by
  intro k
  induction k with
  | zero =>
    intro n cs u c hcs hk
    match n, cs with
    | m + 1, u0 :: ts =>
      simp only [List.getElem?_cons_zero] at hcs
      cases hcs
      simp [List.replicate, doneL, doneL_replicate]
  | succ k ih =>
    intro n cs u c hcs hk
    match n, cs with
    | m + 1, u0 :: ts =>
      have := ih m ts u c (by simpa using hcs) (by omega)
      simpa [List.replicate, doneL] using this

/-- Pointwise congruence for doneL. -/
theorem doneL_congr_pt (S S2 : List BNode) : ∀ (cs : List DTree) (sl sl2 : List (Option Nat)),
    (∀ i : Nat, sl2[i]? = sl[i]?) →
    (∀ (i cid : Nat) (u : DTree), sl[i]? = some (some cid) → cs[i]? = some u →
      done S2 cid u = done S cid u) →
    doneL S2 sl2 cs = doneL S sl cs := by
  intro cs
  induction cs with
  | nil => intro sl sl2 _ _; simp [doneL]
  | cons u ts ih =>
    intro sl sl2 hpt hcong
    match sl, sl2, hpt with
    | [], [], _ => simp [doneL]
    | [], s2 :: ss2, hpt => exact absurd (hpt 0) (by simp)
    | s :: ss, [], hpt => exact absurd (hpt 0) (by simp)
    | s :: ss, s2 :: ss2, hpt =>
      have h0 := hpt 0
      simp only [List.getElem?_cons_zero, Option.some.injEq] at h0
      have htail : doneL S2 ss2 ts = doneL S ss ts :=
        ih ss ss2 (fun i => by simpa using hpt (i + 1))
          (fun i cid u2 h1 h2 => hcong (i + 1) cid u2 (by simpa using h1) (by simpa using h2))
      rcases s with _ | c
      · subst h0
        simpa [doneL] using htail
      · subst h0
        have hc := hcong 0 c u (by simp) (by simp)
        simp [doneL, htail, hc]

/-- doneL when exactly one position's contribution grows by one. -/
theorem doneL_bump (S S2 : List BNode) : ∀ (cs : List DTree) (j : Nat)
    (sl sl2 : List (Option Nat)),
    sl2.length = sl.length →
    (∀ i : Nat, i ≠ j → sl2[i]? = sl[i]?) →
    (∀ (i cid : Nat) (u : DTree), i ≠ j → sl[i]? = some (some cid) → cs[i]? = some u →
      done S2 cid u = done S cid u) →
    slotContrib S2 sl2 cs j = slotContrib S sl cs j + 1 →
    doneL S2 sl2 cs = doneL S sl cs + 1 := by
  intro cs
  induction cs with
  | nil =>
    intro j sl sl2 _ _ _ hj
    simp only [slotContrib] at hj
    rcases h1 : sl2[j]? with _ | s1 <;> rcases h2 : sl[j]? with _ | s2 <;>
      rw [h1, h2] at hj <;> simp at hj
  | cons u ts ih =>
    intro j sl sl2 hlen hne hcong hj
    match sl, sl2 with
    | [], [] =>
      simp only [slotContrib] at hj
      simp at hj
    | [], s2 :: ss2 => simp at hlen
    | s :: ss, [] => simp at hlen
    | s :: ss, s2 :: ss2 =>
      match j with
      | 0 =>
        have htail : doneL S2 ss2 ts = doneL S ss ts := by
          apply doneL_congr_pt
          · intro i
            simpa using hne (i + 1) (by omega)
          · intro i cid u2 h1 h2
            exact hcong (i + 1) cid u2 (by omega) (by simpa using h1) (by simpa using h2)
        simp only [slotContrib, List.getElem?_cons_zero] at hj
        match s, s2 with
        | none, none => simp at hj
        | none, some c2 =>
          simp only [doneL]
          simp at hj
          omega
        | some c1, none =>
          simp at hj
        | some c1, some c2 =>
          simp only [doneL]
          simp at hj
          omega
      | k + 1 =>
        have hhead := hne 0 (by omega)
        simp only [List.getElem?_cons_zero, Option.some.injEq] at hhead
        have htail : doneL S2 ss2 ts = doneL S ss ts + 1 := by
          apply ih k ss ss2 (by simpa using hlen)
          · intro i hi
            simpa using hne (i + 1) (by omega)
          · intro i cid u2 hi h1 h2
            exact hcong (i + 1) cid u2 (by omega) (by simpa using h1) (by simpa using h2)
          · simpa [slotContrib] using hj
        rcases s with _ | c
        · subst hhead
          simpa [doneL] using htail
        · subst hhead
          have hc := hcong 0 c u (by omega) (by simp) (by simp)
          simp [doneL, htail, hc]
          omega

mutual

/-- done is unchanged by a store update that only touches a node outside the
closure of the walk's start (and freshly appended nodes). -/
theorem done_congr_out : ∀ (u : DTree) (S S2 : List BNode) (c tgt : Nat),
    (∀ p i c2, Edge S p i c2 → p < c2 ∧ c2 < S.length) →
    (∀ x : Nat, x < S.length → x ≠ tgt → S2[x]? = S[x]?) →
    c < S.length → ¬ InClosure S c tgt →
    done S2 c u = done S c u := by
  intro u S S2 c tgt hincr hagree hc hnin
  match u with
  | .leaf => simp [done]
  | .node cs =>
    have hcne : c ≠ tgt := fun h => hnin (h ▸ InClosure.refl c)
    have hEq : S2[c]? = S[c]? := hagree c hc hcne
    simp only [done, hEq]
    match hnd : S[c]? with
    | none => cases cs <;> rfl
    | some nd =>
      apply doneL_congr_out cs nd.children S S2 tgt hincr hagree
      intro cid hmem
      obtain ⟨i, hi⟩ := List.mem_iff_getElem?.1 hmem
      have he : Edge S c i cid := ⟨nd, hnd, hi⟩
      refine ⟨(hincr _ _ _ he).2, fun hcl => hnin (.step he hcl)⟩

/-- List version of done_congr_out. -/
theorem doneL_congr_out : ∀ (cs : List DTree) (sl : List (Option Nat))
    (S S2 : List BNode) (tgt : Nat),
    (∀ p i c2, Edge S p i c2 → p < c2 ∧ c2 < S.length) →
    (∀ x : Nat, x < S.length → x ≠ tgt → S2[x]? = S[x]?) →
    (∀ cid : Nat, (some cid) ∈ sl → cid < S.length ∧ ¬ InClosure S cid tgt) →
    doneL S2 sl cs = doneL S sl cs := by
  intro cs sl S S2 tgt hincr hagree hmem
  match sl, cs with
  | _, [] => simp [doneL]
  | [], _ :: _ => simp [doneL]
  | none :: ss, u :: ts =>
    have h := doneL_congr_out ts ss S S2 tgt hincr hagree
      (fun cid hm => hmem cid (by simp [hm]))
    simpa [doneL] using h
  | some c :: ss, u :: ts =>
    have h1 := done_congr_out u S S2 c tgt hincr hagree
      (hmem c (by simp)).1 (hmem c (by simp)).2
    have h2 := doneL_congr_out ts ss S S2 tgt hincr hagree
      (fun cid hm => hmem cid (by simp [hm]))
    simp [doneL, h1, h2]

end

/-- Rep survives a store update outside the closure of its root. -/
theorem rep_congr_out {S S2 : List BNode} {c : Nat} {u : DTree} {tgt : Nat}
    (h : Rep S c u)
    (hagree : ∀ x : Nat, x < S.length → x ≠ tgt → S2[x]? = S[x]?) :
    ¬ InClosure S c tgt → Rep S2 c u := by
  induction h with
  | leaf h1 h2 =>
    intro hnin
    refine .leaf ?_ h2
    rw [hagree _ (List.getElem?_eq_some.1 h1).1 (fun h => hnin (h ▸ InClosure.refl _))]
    exact h1
  | node h1 h2 h3 ih =>
    intro hnin
    refine .node ?_ h2 ?_
    · rw [hagree _ (List.getElem?_eq_some.1 h1).1 (fun h => hnin (h ▸ InClosure.refl _))]
      exact h1
    · intro i cid u2 hcs hsl
      exact ih i cid u2 hcs hsl (fun hcl => hnin (.step ⟨_, h1, hsl⟩ hcl))

/-- Inversion for Rep at a leaf. -/
theorem rep_leaf_inv {S : List BNode} {id : Nat} (h : Rep S id .leaf) :
    ∃ nd, S[id]? = some nd ∧ nd.children = [] := by
  cases h with
  | leaf h1 h2 => exact ⟨_, h1, h2⟩

/-- Inversion for Rep at a choose point. -/
theorem rep_node_inv {S : List BNode} {id : Nat} {cs : List DTree}
    (h : Rep S id (.node cs)) :
    ∃ nd, S[id]? = some nd ∧ nd.children.length = cs.length ∧
      ∀ (i cid : Nat) (u2 : DTree), cs[i]? = some u2 →
        nd.children[i]? = some (some cid) → Rep S cid u2 := by
  cases h with
  | node h1 h2 h3 => exact ⟨_, h1, h2, h3⟩

/-- A descent is a closure witness. -/
theorem descend_inclosure {S : List BNode} :
    ∀ {id : Nat} {u : DTree} {h : List Nat} {tgt : Nat} {ut : DTree},
      Descend S id u h tgt ut → InClosure S id tgt := by
  intro id u h tgt ut hd
  induction hd with
  | nil => exact .refl _
  | cons he hcs _ ih => exact .step he ih

/-- Build the descent recorded by a successful path walk from a Rep node. -/
theorem descend_of_follow {S : List BNode} :
    ∀ (h : List Nat) {id : Nat} {u : DTree}, Rep S id u →
      ∀ {tgt : Nat}, followPath S id h = some tgt →
        ∃ ut, Descend S id u h tgt ut ∧ Rep S tgt ut := by
  intro h
  induction h with
  | nil =>
    intro id u hrep tgt hf
    simp only [followPath] at hf
    cases hf
    exact ⟨u, .nil id u, hrep⟩
  | cons a rest ih =>
    intro id u hrep tgt hf
    simp only [followPath] at hf
    match hnd : S[id]? with
    | none => simp [hnd] at hf
    | some nd =>
      simp only [hnd] at hf
      match hsl : nd.children[a]? with
      | none => simp [hsl] at hf
      | some none => simp [hsl] at hf
      | some (some cid) =>
        simp only [hsl] at hf
        match u, hrep with
        | .leaf, hrep =>
          obtain ⟨nd2, h1, h2⟩ := rep_leaf_inv hrep
          rw [hnd] at h1
          cases h1
          rw [h2] at hsl
          simp at hsl
        | .node cs, hrep =>
          obtain ⟨nd2, h1, h2, h3⟩ := rep_node_inv hrep
          rw [hnd] at h1
          cases h1
          have ha : a < cs.length := by
            have := (List.getElem?_eq_some.1 hsl).1
            omega
          match hcs : cs[a]? with
          | none =>
            rw [List.getElem?_eq_none_iff] at hcs
            omega
          | some u2 =>
            obtain ⟨ut, hd, hr⟩ := ih (h3 a cid u2 hcs hsl) hf
            exact ⟨ut, .cons ⟨nd, hnd, hsl⟩ hcs hd, hr⟩

/-- Inversion for an empty descent. -/
theorem descend_nil_inv {S : List BNode} {id tgt : Nat} {u ut : DTree}
    (h : Descend S id u [] tgt ut) : id = tgt ∧ u = ut := by
  cases h
  exact ⟨rfl, rfl⟩

/-- Inversion for a nonempty descent. -/
theorem descend_cons_inv {S : List BNode} {id a tgt : Nat} {h2 : List Nat}
    {u ut : DTree} (h : Descend S id u (a :: h2) tgt ut) :
    ∃ (cs : List DTree) (c : Nat) (u2 : DTree), u = .node cs ∧ Edge S id a c ∧
      cs[a]? = some u2 ∧ Descend S c u2 h2 tgt ut := by
  cases h with
  | cons he hcs hd => exact ⟨_, _, _, rfl, he, hcs, hd⟩

/-- Filling the untaken slot j of the target with a fresh subtree containing
exactly one materialised path raises done by exactly one, all along the
descent from any ancestor. -/
theorem done_upd {S S2 : List BNode} {tgt j c0 : Nat} {csT : List DTree} {uj : DTree}
    (hincr : ∀ p i c2, Edge S p i c2 → p < c2 ∧ c2 < S.length)
    (huniq : ∀ p i c p2 i2, Edge S p i c → Edge S p2 i2 c → p = p2 ∧ i = i2)
    (hagree : ∀ x : Nat, x < S.length → x ≠ tgt → S2[x]? = S[x]?)
    {ndt : BNode}
    (htgt1 : S[tgt]? = some ndt)
    (htgt2 : ndt.children[j]? = some none)
    (htgt3 : S2[tgt]? = some ⟨ndt.parent, ndt.children.set j (some c0)⟩)
    (hcsj : csT[j]? = some uj)
    (hone : done S2 c0 uj = 1) :
    ∀ (h : List Nat) (id : Nat) (u : DTree), Descend S id u h tgt (.node csT) →
      done S2 id u = done S id u + 1 := by
  intro h
  induction h with
  | nil =>
    intro id u hd
    obtain ⟨hid, hu⟩ := descend_nil_inv hd
    subst hu
    rw [hid]
    simp only [done, htgt1, htgt3]
    apply doneL_bump
    · simp
    · intro i hi
      exact List.getElem?_set_ne (fun he => hi he.symm)
    · intro i cid u2 hi h1 h2
      have he : Edge S tgt i cid := ⟨ndt, htgt1, h1⟩
      exact done_congr_out u2 S S2 cid tgt hincr hagree (hincr _ _ _ he).2
        (child_not_inclosure_self hincr he)
    · have hjlt : j < ndt.children.length := (List.getElem?_eq_some.1 htgt2).1
      simp only [slotContrib, htgt2, hcsj, List.getElem?_set_self hjlt]
      rw [hone]
  | cons a h2 ih =>
    intro id u hd
    obtain ⟨cs, c, u2, hu, he, hcs, hd2⟩ := descend_cons_inv hd
    subst hu
    have hidtgt : id ≠ tgt := by
      have h1 := (hincr _ _ _ he).1
      have h2b := inclosure_le hincr (descend_inclosure hd2)
      omega
    have hidlt : id < S.length := by
      have h1 := (hincr _ _ _ he).1
      have h2b := (hincr _ _ _ he).2
      omega
    have hEq : S2[id]? = S[id]? := hagree id hidlt hidtgt
    simp only [done, hEq]
    obtain ⟨ndi, hnd, hsl⟩ := he
    simp only [hnd]
    apply doneL_bump
    · rfl
    · intro i _
      rfl
    · intro i cid u3 hi h1 h3
      have hei : Edge S id i cid := ⟨ndi, hnd, h1⟩
      exact done_congr_out u3 S S2 cid tgt hincr hagree (hincr _ _ _ hei).2
        (sibling_not_inclosure hincr huniq hei ⟨ndi, hnd, hsl⟩ hi
          (descend_inclosure hd2))
    · simp only [slotContrib, hsl, hcs]
      exact ih c u2 hd2

/-- Rep is preserved by filling the untaken slot with a subtree that itself
satisfies Rep for the branch's decision tree. -/
theorem rep_upd {S S2 : List BNode} {tgt j c0 : Nat} {csT : List DTree} {uj : DTree}
    (hincr : ∀ p i c2, Edge S p i c2 → p < c2 ∧ c2 < S.length)
    (huniq : ∀ p i c p2 i2, Edge S p i c → Edge S p2 i2 c → p = p2 ∧ i = i2)
    (hagree : ∀ x : Nat, x < S.length → x ≠ tgt → S2[x]? = S[x]?)
    {ndt : BNode}
    (htgt1 : S[tgt]? = some ndt)
    (htgt3 : S2[tgt]? = some ⟨ndt.parent, ndt.children.set j (some c0)⟩)
    (hcsj : csT[j]? = some uj)
    (hrep0 : Rep S2 c0 uj) :
    ∀ (h : List Nat) (id : Nat) (u : DTree), Descend S id u h tgt (.node csT) →
      Rep S id u → Rep S2 id u := by
  intro h
  induction h with
  | nil =>
    intro id u hd hrep
    obtain ⟨hid, hu⟩ := descend_nil_inv hd
    subst hu
    rw [hid] at hrep ⊢
    obtain ⟨nd2, h1, h2, h3⟩ := rep_node_inv hrep
    rw [htgt1] at h1
    cases h1
    refine .node htgt3 (by simpa using h2) ?_
    intro i cid u2 hcs hsl
    rcases eq_or_ne i j with hij | hij
    · subst hij
      rw [List.getElem?_set_self (by
          have := (List.getElem?_eq_some.1 hsl).1
          simpa using this)] at hsl
      rw [hcsj] at hcs
      cases hcs
      cases hsl
      exact hrep0
    · rw [List.getElem?_set_ne (fun he2 => hij he2.symm)] at hsl
      have he : Edge S tgt i cid := ⟨ndt, htgt1, hsl⟩
      exact rep_congr_out (h3 i cid u2 hcs hsl) hagree
        (child_not_inclosure_self hincr he)
  | cons a h2 ih =>
    intro id u hd hrep
    obtain ⟨cs, c, u2, hu, he, hcs, hd2⟩ := descend_cons_inv hd
    subst hu
    obtain ⟨ndi, h1, h2b, h3⟩ := rep_node_inv hrep
    have hidtgt : id ≠ tgt := by
      have ha := (hincr _ _ _ he).1
      have hb := inclosure_le hincr (descend_inclosure hd2)
      omega
    have hidlt : id < S.length := by
      have ha := (hincr _ _ _ he).2
      have hb := (hincr _ _ _ he).1
      omega
    refine .node (by rw [hagree id hidlt hidtgt]; exact h1) h2b ?_
    intro i cid u3 hcs3 hsl3
    obtain ⟨ndi2, hnd2, hsl2⟩ := he
    rw [h1] at hnd2
    cases hnd2
    rcases eq_or_ne i a with hia | hia
    · subst hia
      rw [hsl2] at hsl3
      cases hsl3
      rw [hcs] at hcs3
      cases hcs3
      exact ih c u2 hd2 (h3 i c u2 hcs hsl2)
    · have hei : Edge S id i cid := ⟨ndi, h1, hsl3⟩
      exact rep_congr_out (h3 i cid u3 hcs3 hsl3) hagree
        (sibling_not_inclosure hincr huniq hei ⟨ndi, h1, hsl2⟩ hia
          (descend_inclosure hd2))

mutual

/-- When no slot anywhere is untaken, done equals the leaf count. -/
theorem full_done : ∀ (u : DTree) (S : List BNode) (id : Nat),
    Rep S id u → NoNone S → done S id u = u.leaves := by
  intro u S id hrep hnn
  match u, hrep with
  | .leaf, _ => simp [done, DTree.leaves]
  | .node cs, hrep =>
    obtain ⟨nd, h1, h2, h3⟩ := rep_node_inv hrep
    simp only [done, DTree.leaves, h1]
    exact full_doneL cs nd.children S h2 (fun i cid u2 hsl hcs => h3 i cid u2 hcs hsl)
      (fun i hsl => hnn id i nd h1 hsl) hnn

/-- Forest version of full_done. -/
theorem full_doneL : ∀ (cs : List DTree) (sl : List (Option Nat)) (S : List BNode),
    sl.length = cs.length →
    (∀ (i cid : Nat) (u2 : DTree), sl[i]? = some (some cid) → cs[i]? = some u2 →
      Rep S cid u2) →
    (∀ i : Nat, sl[i]? = some none → False) →
    NoNone S →
    doneL S sl cs = leavesL cs := by
  intro cs sl S hlen hrep hnone hnn
  match sl, cs with
  | [], [] => simp [doneL, leavesL]
  | [], _ :: _ => simp at hlen
  | _ :: _, [] => simp at hlen
  | none :: ss, u :: ts => exact absurd (hnone 0 (by simp)) (fun h => h)
  | some c :: ss, u :: ts =>
    have h1 := full_done u S c (hrep 0 c u (by simp) (by simp)) hnn
    have h2 := full_doneL ts ss S (by simpa using hlen)
      (fun i cid u2 hsl hcs => hrep (i + 1) cid u2 (by simpa using hsl) (by simpa using hcs))
      (fun i hsl => hnone (i + 1) (by simpa using hsl)) hnn
    simp [doneL, leavesL, h1, h2]

end

/-- When no slot anywhere is untaken, every root-to-leaf path of the
generator is materialised. -/
theorem coverage {t : DTree} {p : List Nat} (hp : LeafPath t p) :
    ∀ (S : List BNode) (id : Nat), Rep S id t → NoNone S →
      ∃ e, followPath S id p = some e := by
  induction hp with
  | leaf =>
    intro S id _ _
    exact ⟨id, rfl⟩
  | node hcs hp2 ih =>
    rename_i cs2 i2 t2 p2
    intro S id hrep hnn
    obtain ⟨nd, h1, h2, h3⟩ := rep_node_inv hrep
    have hilt : i2 < nd.children.length := by
      rw [h2]
      exact (List.getElem?_eq_some.1 hcs).1
    match hsl : nd.children[i2]? with
    | none =>
      rw [List.getElem?_eq_none_iff] at hsl
      omega
    | some none => exact absurd (hnn id i2 nd h1 hsl) (fun h => h)
    | some (some cid) =>
      obtain ⟨e, he⟩ := ih S cid (h3 i2 cid t2 hcs hsl) hnn
      refine ⟨e, ?_⟩
      simp only [followPath, h1, hsl]
      exact he

----------------------------------------------------------------------------
-- Scan, queue, path and walk lemmas
----------------------------------------------------------------------------

/-- The scan's counter counts the untaken slots. -/
theorem scanUntakenAux_count : ∀ (cs : List (Option Nat)) (i cnt : Nat) (nxt : Option Nat),
    (scanUntakenAux cs i cnt nxt).1 = cnt + noneCount cs := by
  intro cs
  induction cs with
  | nil => intro i cnt nxt; simp [scanUntakenAux, noneCount]
  | cons s rest ih =>
    intro i cnt nxt
    match s with
    | none =>
      rw [scanUntakenAux, ih]
      simp [noneCount, List.countP_cons]
      omega
    | some c =>
      rw [scanUntakenAux, ih]
      simp [noneCount, List.countP_cons]

/-- NumUntaken equals the number of untaken slots. -/
theorem scan_count (cs : List (Option Nat)) : (scanUntaken cs).1 = noneCount cs := by
  have := scanUntakenAux_count cs 0 0 none
  simpa [scanUntaken] using this

/-- If the scan returns no Next, there was no untaken slot (and the carried
accumulator was empty). -/
theorem scanUntakenAux_none : ∀ (cs : List (Option Nat)) (i cnt : Nat) (nxt : Option Nat),
    (scanUntakenAux cs i cnt nxt).2 = none →
    nxt = none ∧ ∀ p : Nat, cs[p]? ≠ some none := by
  intro cs
  induction cs with
  | nil =>
    intro i cnt nxt h
    simp only [scanUntakenAux] at h
    exact ⟨h, fun p => by simp⟩
  | cons s rest ih =>
    intro i cnt nxt h
    match s with
    | none =>
      rw [scanUntakenAux] at h
      have := (ih (i + 1) (cnt + 1) (some i) h).1
      simp at this
    | some c =>
      rw [scanUntakenAux] at h
      obtain ⟨h1, h2⟩ := ih (i + 1) cnt nxt h
      refine ⟨h1, fun p => ?_⟩
      match p with
      | 0 => simp
      | q + 1 => simpa using h2 q

/-- An untaken slot guarantees the scan returns a Next. -/
theorem scan_some_of_none_slot {cs : List (Option Nat)} {p : Nat}
    (h : cs[p]? = some none) : ∃ j, (scanUntaken cs).2 = some j := by
  match hj : (scanUntaken cs).2 with
  | some j => exact ⟨j, rfl⟩
  | none => exact absurd h ((scanUntakenAux_none cs 0 0 none hj).2 p)

/-- An untaken slot exists iff the untaken count is positive. -/
theorem noneCount_pos_iff (cs : List (Option Nat)) :
    1 ≤ noneCount cs ↔ ∃ i : Nat, cs[i]? = some none := by
  induction cs with
  | nil => simp [noneCount]
  | cons s rest ih =>
    match s with
    | none =>
      simp only [noneCount, List.countP_cons]
      constructor
      · intro _
        exact ⟨0, by simp⟩
      · intro _
        simp
    | some c =>
      simp only [noneCount, List.countP_cons] at ih ⊢
      simp only [show ((some c : Option Nat) == none) = false by rfl]
      constructor
      · intro h
        obtain ⟨i, hi⟩ := ih.1 (by simpa using h)
        exact ⟨i + 1, by simpa using hi⟩
      · intro ⟨i, hi⟩
        match i with
        | 0 => simp at hi
        | q + 1 =>
          have := ih.2 ⟨q, by simpa using hi⟩
          simpa using this

/-- Filling an untaken slot lowers the untaken count by one. -/
theorem noneCount_set_some : ∀ (cs : List (Option Nat)) (j c : Nat),
    cs[j]? = some none → noneCount (cs.set j (some c)) + 1 = noneCount cs := by
  intro cs
  induction cs with
  | nil => intro j c h; simp at h
  | cons s rest ih =>
    intro j c h
    match j with
    | 0 =>
      simp only [List.getElem?_cons_zero, Option.some.injEq] at h
      subst h
      simp [noneCount, List.countP_cons]
    | k + 1 =>
      have := ih k c (by simpa using h)
      simp only [List.set_cons_succ, noneCount, List.countP_cons] at *
      omega

/-- An empty minimum means an empty queue. -/
theorem minLevel_eq_none : ∀ (q : List (Nat × Nat)), minLevel q = none → q = [] := by
  intro q h
  match q with
  | [] => rfl
  | e :: rest =>
    rw [minLevel] at h
    rcases hr : minLevel rest with _ | m <;> rw [hr] at h <;> simp at h

/-- The minimum queue level bounds every entry. -/
theorem minLevel_le : ∀ (q : List (Nat × Nat)) (m : Nat), minLevel q = some m →
    ∀ e ∈ q, m ≤ e.2 := by
  intro q
  induction q with
  | nil => intro m h; simp [minLevel] at h
  | cons e0 rest ih =>
    intro m h e he
    rw [minLevel] at h
    rcases hm : minLevel rest with _ | m2
    · rw [hm] at h
      cases h
      rcases List.mem_cons.1 he with he0 | hrest
      · subst he0; exact le_rfl
      · rw [minLevel_eq_none rest hm] at hrest
        simp at hrest
    · rw [hm] at h
      cases h
      rcases List.mem_cons.1 he with he0 | hrest
      · subst he0
        simp [Nat.min_le_left]
      · exact le_trans (by simp [Nat.min_le_right]) (ih m2 hm e hrest)

/-- A nonempty queue has a minimum level. -/
theorem minLevel_isSome : ∀ (q : List (Nat × Nat)), q ≠ [] → ∃ m, minLevel q = some m := by
  intro q hq
  match q with
  | e :: rest =>
    rw [minLevel]
    rcases hr : minLevel rest with _ | m
    · exact ⟨e.2, rfl⟩
    · exact ⟨Nat.min e.2 m, rfl⟩

/-- The minimum level is attained by some entry. -/
theorem minLevel_mem : ∀ (q : List (Nat × Nat)) (m : Nat), minLevel q = some m →
    ∃ e ∈ q, e.2 = m := by
  intro q
  induction q with
  | nil => intro m h; simp [minLevel] at h
  | cons e0 rest ih =>
    intro m h
    rw [minLevel] at h
    rcases hr : minLevel rest with _ | m2
    · rw [hr] at h
      cases h
      exact ⟨e0, by simp, rfl⟩
    · rw [hr] at h
      cases h
      rcases Nat.le_total e0.2 m2 with hle | hle
      · exact ⟨e0, by simp, (Nat.min_eq_left hle).symm⟩
      · obtain ⟨e, he, hm2⟩ := ih m2 hr
        exact ⟨e, by simp [he], by rw [hm2]; exact (Nat.min_eq_right hle).symm⟩

/-- Characterisation of removing the earliest entry at a level. -/
theorem removeAtLevel_spec : ∀ (q : List (Nat × Nat)) (m : Nat) (e : Nat × Nat)
    (q2 : List (Nat × Nat)), removeAtLevel m q = some (e, q2) →
    e.2 = m ∧ ∃ l1 l2, q = l1 ++ e :: l2 ∧ q2 = l1 ++ l2 := by
  intro q
  induction q with
  | nil => intro m e q2 h; simp [removeAtLevel] at h
  | cons e0 rest ih =>
    intro m e q2 h
    rw [removeAtLevel] at h
    by_cases h0 : e0.2 = m
    · rw [if_pos h0] at h
      cases h
      exact ⟨h0, [], rest, by simp, by simp⟩
    · rw [if_neg h0] at h
      rcases hrec : removeAtLevel m rest with _ | ⟨e2, q3⟩
      · rw [hrec] at h
        simp at h
      · rw [hrec] at h
        simp only [Option.map_some', Option.some.injEq, Prod.mk.injEq] at h
        obtain ⟨h1, h2⟩ := h
        subst h1
        subst h2
        obtain ⟨hm, l1, l2, hq, hq2⟩ := ih m e2 q3 hrec
        exact ⟨hm, e0 :: l1, l2, by simp [hq], by simp [hq2]⟩

/-- Removal succeeds whenever some entry has the level. -/
theorem removeAtLevel_isSome : ∀ (q : List (Nat × Nat)) (m : Nat),
    (∃ e ∈ q, e.2 = m) → ∃ x, removeAtLevel m q = some x := by
  intro q
  induction q with
  | nil => intro m h; simp at h
  | cons e0 rest ih =>
    intro m h
    rw [removeAtLevel]
    by_cases h0 : e0.2 = m
    · rw [if_pos h0]
      exact ⟨(e0, rest), rfl⟩
    · rw [if_neg h0]
      obtain ⟨e, he, hm⟩ := h
      rcases List.mem_cons.1 he with he0 | hrest
      · subst he0; exact absurd hm h0
      · obtain ⟨⟨e2, q3⟩, hx⟩ := ih m ⟨e, hrest, hm⟩
        rw [hx]
        exact ⟨(e2, e0 :: q3), rfl⟩

/-- removeHead of a nonempty queue: it returns an entry of minimal level and
the queue without that entry. -/
theorem priqRemoveHead_spec (q : List (Nat × Nat)) (hq : q ≠ []) :
    ∃ (nid lvl : Nat) (l1 l2 : List (Nat × Nat)),
      priqRemoveHead q = some ((nid, lvl), l1 ++ l2) ∧
      q = l1 ++ (nid, lvl) :: l2 ∧ ∀ e ∈ q, lvl ≤ e.2 := by
  obtain ⟨m, hm⟩ := minLevel_isSome q hq
  have hmem : ∃ e ∈ q, e.2 = m := minLevel_mem q m hm
  obtain ⟨⟨e, q2⟩, hx⟩ := removeAtLevel_isSome q m hmem
  obtain ⟨hlvl, l1, l2, hq1, hq2⟩ := removeAtLevel_spec q m e q2 hx
  refine ⟨e.1, e.2, l1, l2, ?_, ?_, ?_⟩
  · simp only [priqRemoveHead, hm, hx, hq2]
  · rw [hq1]
  · rw [hlvl]
    exact minLevel_le q m hm

/-- findIdx? with an explicit start index on a unique match. -/
theorem findIdx?_unique : ∀ (cs : List (Option Nat)) (cid a st : Nat),
    cs[a]? = some (some cid) → (∀ i : Nat, cs[i]? = some (some cid) → i = a) →
    List.findIdx? (fun s => s == some cid) cs st = some (st + a) := by
  intro cs
  induction cs with
  | nil => intro cid a st h _; simp at h
  | cons s rest ih =>
    intro cid a st h huniq
    match a with
    | 0 =>
      simp only [List.getElem?_cons_zero, Option.some.injEq] at h
      subst h
      simp [List.findIdx?]
    | k + 1 =>
      have hs : (s == some cid) = false := by
        rcases hsv : s == some cid with _ | _
        · rfl
        · have : s = some cid := by
            cases s <;> simp_all
          subst this
          have := huniq 0 (by simp)
          omega
      have hrec := ih cid k (st + 1) (by simpa using h)
        (fun i hi => by
          have := huniq (i + 1) (by simpa using hi)
          omega)
      simp only [List.findIdx?, hs, Bool.false_eq_true, if_false, hrec,
        Option.some.injEq]
      omega

/-- The first index holding a given (uniquely linked) child. -/
theorem findChildIdx_spec {cs : List (Option Nat)} {cid a : Nat}
    (h : cs[a]? = some (some cid))
    (huniq : ∀ i : Nat, cs[i]? = some (some cid) → i = a) :
    findChildIdx cs cid = some a := by
  have := findIdx?_unique cs cid a 0 h huniq
  simpa [findChildIdx] using this

/-- Ext is reflexive. -/
theorem ext_refl (s : List BNode) : Ext s s := ⟨le_rfl, fun _ _ _ h => h⟩

/-- Ext is transitive. -/
theorem ext_trans {s1 s2 s3 : List BNode} (h1 : Ext s1 s2) (h2 : Ext s2 s3) : Ext s1 s3 :=
  ⟨le_trans h1.1 h2.1, fun p i c h => h2.2 p i c (h1.2 p i c h)⟩

/-- Successful walks survive edge-monotone extension. -/
theorem followPath_mono {s s2 : List BNode} (hext : Ext s s2) :
    ∀ (p : List Nat) {a b : Nat}, followPath s a p = some b →
      followPath s2 a p = some b := by
  intro p
  induction p with
  | nil =>
    intro a b h
    simpa [followPath] using h
  | cons x xs ih =>
    intro a b h
    simp only [followPath] at h
    match hnd : s[a]? with
    | none => simp [hnd] at h
    | some nd =>
      simp only [hnd] at h
      match hsl : nd.children[x]? with
      | none => simp [hsl] at h
      | some none => simp [hsl] at h
      | some (some cid) =>
        simp only [hsl] at h
        obtain ⟨nd2, hnd2, hsl2⟩ := hext.2 a x cid ⟨nd, hnd, hsl⟩
        simp only [followPath, hnd2, hsl2]
        exact ih h

/-- Unfolding the leading root hop of a 0-rooted path. -/
theorem followPath_zero_cons {s : List BNode} {rd : BNode} {r1 : Nat}
    (h1 : s[0]? = some rd) (h2 : rd.children[0]? = some (some r1)) (h : List Nat) :
    followPath s 0 (0 :: h) = followPath s r1 h := by
  simp [followPath, h1, h2]

/-- Decomposing a successful walk at its last step. -/
theorem followPath_append_one {s : List BNode} :
    ∀ (p : List Nat) {x a tgt : Nat}, followPath s x (p ++ [a]) = some tgt →
      ∃ (y : Nat) (nd : BNode), followPath s x p = some y ∧ s[y]? = some nd ∧
        nd.children[a]? = some (some tgt) := by
  intro p
  induction p with
  | nil =>
    intro x a tgt h
    simp only [List.nil_append, followPath] at h
    match hnd : s[x]? with
    | none => simp [hnd] at h
    | some nd =>
      simp only [hnd] at h
      match hsl : nd.children[a]? with
      | none => simp [hsl] at h
      | some none => simp [hsl] at h
      | some (some cid) =>
        simp only [hsl, followPath] at h
        cases h
        exact ⟨x, nd, rfl, hnd, hsl⟩
  | cons z zs ih =>
    intro x a tgt h
    simp only [List.cons_append, followPath] at h
    match hnd : s[x]? with
    | none => simp [hnd] at h
    | some nd =>
      simp only [hnd] at h
      match hsl : nd.children[z]? with
      | none => simp [hsl] at h
      | some none => simp [hsl] at h
      | some (some cid) =>
        simp only [hsl] at h
        obtain ⟨y, nd2, hf, hnd2, hsl2⟩ := ih h
        exact ⟨y, nd2, by simp [followPath, hnd, hsl, hf], hnd2, hsl2⟩

/-- A nonempty successful walk from the one-slot root starts with choice 0. -/
theorem zero_path_head {s : List BNode} {rd : BNode}
    (h1 : s[0]? = some rd) (hlen : rd.children.length = 1) :
    ∀ {x e : Nat} {rest : List Nat}, followPath s 0 (x :: rest) = some e → x = 0 := by
  intro x e rest h
  simp only [followPath, h1] at h
  match hsl : rd.children[x]? with
  | none => simp [hsl] at h
  | some none => simp [hsl] at h
  | some (some cid) =>
    have := (List.getElem?_eq_some.1 hsl).1
    omega

/-- The upward walk of makeChooser reconstructs the target's root path in
reverse, appended to the accumulated choices. -/
theorem walk_spec {store : List BNode} (sinv : SInv store) :
    ∀ (h : List Nat) (tgt : Nat) (acc : List Nat) (fuel : Nat),
      followPath store 0 (0 :: h) = some tgt →
      (∃ ndt, store[tgt]? = some ndt ∧ 1 ≤ ndt.children.length) →
      tgt < fuel →
      walkAncestors store fuel tgt acc = some (acc ++ h.reverse) := by
  intro h
  induction h using List.reverseRecOn with
  | nil =>
    intro tgt acc fuel hf hint hfuel
    obtain ⟨rd, hrd, hrdp, hrdlen⟩ := sinv.root
    simp only [followPath, hrd] at hf
    match hsl : rd.children[0]? with
    | none => simp [hsl] at hf
    | some none => simp [hsl] at hf
    | some (some r1) =>
      simp only [hsl, followPath] at hf
      cases hf
      obtain ⟨ndt, hndt, hlen⟩ := hint
      have hpar : ndt.parent = some 0 := sinv.par 0 0 tgt ndt ⟨rd, hrd, hsl⟩ hndt hlen
      match fuel, hfuel with
      | fl + 1, _ =>
        simp [walkAncestors, hndt, hpar]
  | append_singleton h2 a ih =>
    intro tgt acc fuel hf hint hfuel
    obtain ⟨rd, hrd, hrdp, hrdlen⟩ := sinv.root
    rw [show (0 :: (h2 ++ [a])) = (0 :: h2) ++ [a] by simp] at hf
    obtain ⟨y, ndy, hfy, hndy, hsly⟩ := followPath_append_one (0 :: h2) hf
    obtain ⟨ndt, hndt, hlen⟩ := hint
    have hey : Edge store y a tgt := ⟨ndy, hndy, hsly⟩
    have hpar : ndt.parent = some y := sinv.par y a tgt ndt hey hndt hlen
    have hy0 : 0 < y := by
      have := followPath_lt sinv.incr hfy
      omega
    have hfind : findChildIdx ndy.children tgt = some a := by
      apply findChildIdx_spec hsly
      intro i hi
      exact ((sinv.uniq y i tgt y a ⟨ndy, hndy, hi⟩ hey).2)
    have hylt : y < tgt := (sinv.incr y a tgt hey).1
    match fuel, hfuel with
    | fl + 1, _ =>
      rw [walkAncestors]
      simp only [hndt, hpar]
      rw [if_neg (by omega : ¬ y = 0)]
      simp only [hndy, hfind]
      have := ih y (acc ++ [a]) fl hfy ⟨ndy, hndy, by
        have := (List.getElem?_eq_some.1 hsly).1
        omega⟩ (by omega)
      rw [this]
      simp

----------------------------------------------------------------------------
-- Store allocation: lookup characterisation and invariant preservation
----------------------------------------------------------------------------

/-- Lookup in setChild at the modified node. -/
theorem setChild_self {store : List BNode} {cur last : Nat} {nd : BNode}
    (hnd : store[cur]? = some nd) (v : Option Nat) :
    (setChild store cur last v)[cur]? = some ⟨nd.parent, nd.children.set last v⟩ := by
  simp only [setChild, hnd]
  exact List.getElem?_set_self (List.getElem?_eq_some.1 hnd).1

/-- Lookup in setChild away from the modified node. -/
theorem setChild_other {store : List BNode} {cur last : Nat} {x : Nat} (hx : x ≠ cur)
    (v : Option Nat) : (setChild store cur last v)[x]? = store[x]? := by
  simp only [setChild]
  match store[cur]? with
  | none => rfl
  | some nd => exact List.getElem?_set_ne (fun h => hx h.symm)

/-- setChild preserves the store size. -/
theorem setChild_length (store : List BNode) (cur last : Nat) (v : Option Nat) :
    (setChild store cur last v).length = store.length := by
  simp only [setChild]
  match store[cur]? with
  | none => rfl
  | some nd => simp

/-- Lookup after an allocation step, below the old size and away from the
linking node. -/
theorem alloc_lookup_other {store : List BNode} {cur last x : Nat} {newNode : BNode}
    (hlt : x < store.length) (hx : x ≠ cur) :
    (setChild store cur last (some store.length) ++ [newNode])[x]? = store[x]? := by
  rw [List.getElem?_append]
  rw [if_pos (by rw [setChild_length]; exact hlt)]
  exact setChild_other hx _

/-- Lookup after an allocation step at the linking node. -/
theorem alloc_lookup_cur {store : List BNode} {cur last : Nat} {nd newNode : BNode}
    (hnd : store[cur]? = some nd) :
    (setChild store cur last (some store.length) ++ [newNode])[cur]? =
      some ⟨nd.parent, nd.children.set last (some store.length)⟩ := by
  rw [List.getElem?_append]
  rw [if_pos (by
    rw [setChild_length]
    exact (List.getElem?_eq_some.1 hnd).1)]
  exact setChild_self hnd _

/-- Lookup after an allocation step at the fresh node. -/
theorem alloc_lookup_new (store : List BNode) (cur last : Nat) (newNode : BNode) :
    (setChild store cur last (some store.length) ++ [newNode])[store.length]? =
      some newNode := by
  rw [List.getElem?_append_right (by rw [setChild_length])]
  rw [setChild_length]
  simp

/-- The allocation step grows the store by one. -/
theorem alloc_length (store : List BNode) (cur last : Nat) (newNode : BNode) :
    (setChild store cur last (some store.length) ++ [newNode]).length =
      store.length + 1 := by
  simp [setChild_length]

/-- Edges after an allocation step are the old edges plus the new link,
provided the fresh node has no taken slot and the linked slot was untaken. -/
theorem alloc_edge_inv {store : List BNode} {cur last : Nat} {nd newNode : BNode}
    (hnd : store[cur]? = some nd) (hsl : nd.children[last]? = some none)
    (hnone : ∀ (i c : Nat), newNode.children[i]? = some (some c) → False)
    {p i c : Nat}
    (he : Edge (setChild store cur last (some store.length) ++ [newNode]) p i c) :
    Edge store p i c ∨ (p = cur ∧ i = last ∧ c = store.length) := by
  obtain ⟨ndp, hndp, hslp⟩ := he
  have hplt : p < store.length + 1 := by
    have := (List.getElem?_eq_some.1 hndp).1
    rwa [alloc_length] at this
  rcases Nat.lt_or_ge p store.length with hp | hp
  · rcases eq_or_ne p cur with hpc | hpc
    · subst hpc
      rw [alloc_lookup_cur hnd] at hndp
      cases hndp
      rcases eq_or_ne i last with hil | hil
      · subst hil
        rw [List.getElem?_set_self (List.getElem?_eq_some.1 hsl).1] at hslp
        cases hslp
        exact Or.inr ⟨rfl, rfl, rfl⟩
      · rw [List.getElem?_set_ne (fun h => hil h.symm)] at hslp
        exact Or.inl ⟨nd, hnd, hslp⟩
    · rw [alloc_lookup_other hp hpc] at hndp
      exact Or.inl ⟨ndp, hndp, hslp⟩
  · have hpe : p = store.length := by omega
    subst hpe
    rw [alloc_lookup_new] at hndp
    cases hndp
    exact absurd hslp (fun h => hnone i c h)

/-- Old edges survive an allocation step. -/
theorem alloc_edge_keep {store : List BNode} {cur last : Nat} {nd newNode : BNode}
    (hnd : store[cur]? = some nd) (hsl : nd.children[last]? = some none)
    {p i c : Nat} (he : Edge store p i c) :
    Edge (setChild store cur last (some store.length) ++ [newNode]) p i c := by
  obtain ⟨ndp, hndp, hslp⟩ := he
  rcases eq_or_ne p cur with hpc | hpc
  · subst hpc
    rw [hnd] at hndp
    cases hndp
    refine ⟨_, alloc_lookup_cur hnd, ?_⟩
    have hil : i ≠ last := by
      intro h
      rw [h, hsl] at hslp
      simp at hslp
    rw [List.getElem?_set_ne (fun h => hil h.symm)]
    exact hslp
  · refine ⟨ndp, ?_, hslp⟩
    rw [alloc_lookup_other (List.getElem?_eq_some.1 hndp).1 hpc]
    exact hndp

/-- The new link is an edge after the allocation step. -/
theorem alloc_edge_new {store : List BNode} {cur last : Nat} {nd : BNode}
    (hnd : store[cur]? = some nd) (hsl : nd.children[last]? = some none)
    (newNode : BNode) :
    Edge (setChild store cur last (some store.length) ++ [newNode]) cur last
      store.length := by
  refine ⟨_, alloc_lookup_cur hnd, ?_⟩
  rw [List.getElem?_set_self (List.getElem?_eq_some.1 hsl).1]

/-- The allocation step is an edge-monotone extension. -/
theorem alloc_ext {store : List BNode} {cur last : Nat} {nd newNode : BNode}
    (hnd : store[cur]? = some nd) (hsl : nd.children[last]? = some none) :
    Ext store (setChild store cur last (some store.length) ++ [newNode]) := by
  constructor
  · rw [alloc_length]
    omega
  · intro p i c he
    exact alloc_edge_keep hnd hsl he

/-- SInv is preserved by one allocation step (an interior node with all-none
slots and a correct parent link, or a childless leaf marker). -/
theorem sinv_step {store : List BNode} (sinv : SInv store) {cur last : Nat} {nd : BNode}
    (hnd : store[cur]? = some nd) (hsl : nd.children[last]? = some none)
    (newNode : BNode)
    (hpar2 : 1 ≤ newNode.children.length → newNode.parent = some cur)
    (hnone : ∀ (i c : Nat), newNode.children[i]? = some (some c) → False) :
    SInv (setChild store cur last (some store.length) ++ [newNode]) := by
  have hcurlt : cur < store.length := (List.getElem?_eq_some.1 hnd).1
  constructor
  · obtain ⟨rd, hrd, hrdp, hrdlen⟩ := sinv.root
    rcases eq_or_ne cur 0 with hc0 | hc0
    · subst hc0
      rw [hnd] at hrd
      cases hrd
      exact ⟨_, alloc_lookup_cur hnd, hrdp, by simpa using hrdlen⟩
    · refine ⟨rd, ?_, hrdp, hrdlen⟩
      rw [alloc_lookup_other (by omega) (fun h => hc0 h.symm)]
      exact hrd
  · intro p i c he
    rcases alloc_edge_inv hnd hsl hnone he with hold | ⟨hp, hi, hc⟩
    · have := sinv.incr p i c hold
      rw [alloc_length]
      omega
    · subst hp; subst hc
      rw [alloc_length]
      omega
  · intro p i c p2 i2 he1 he2
    rcases alloc_edge_inv hnd hsl hnone he1 with hold1 | ⟨hp1, hi1, hc1⟩ <;>
      rcases alloc_edge_inv hnd hsl hnone he2 with hold2 | ⟨hp2, hi2, hc2⟩
    · exact sinv.uniq p i c p2 i2 hold1 hold2
    · subst hc2
      have := (sinv.incr p i _ hold1).2
      omega
    · subst hc1
      have := (sinv.incr p2 i2 _ hold2).2
      omega
    · subst hp1; subst hi1; subst hp2; subst hi2
      exact ⟨rfl, rfl⟩
  · intro p i c ndc he hndc hlen
    rcases alloc_edge_inv hnd hsl hnone he with hold | ⟨hp, hi, hc⟩
    · have hclt : c < store.length := (sinv.incr p i c hold).2
      rcases eq_or_ne c cur with hcc | hcc
      · subst hcc
        rw [alloc_lookup_cur hnd] at hndc
        cases hndc
        exact sinv.par p i c nd hold hnd (by simpa using hlen)
      · rw [alloc_lookup_other hclt hcc] at hndc
        exact sinv.par p i c ndc hold hndc hlen
    · subst hp; subst hi; subst hc
      rw [alloc_lookup_new] at hndc
      cases hndc
      exact hpar2 hlen
  · intro c hc1 hc2
    rw [alloc_length] at hc2
    rcases Nat.lt_or_ge c store.length with hc | hc
    · obtain ⟨p, i, he⟩ := sinv.link c hc1 hc
      exact ⟨p, i, alloc_edge_keep hnd hsl he⟩
    · have hce : c = store.length := by omega
      subst hce
      exact ⟨cur, last, alloc_edge_new hnd hsl newNode⟩

----------------------------------------------------------------------------
-- Evaluation lemmas for the chooser operations
----------------------------------------------------------------------------

/-- Narrowing is the identity on values that fit in a positive int. -/
theorem toInt32_small {x : ℤ} (h1 : 0 ≤ x) (h2 : x < 2 ^ 31) : toInt32 x = x := by
  unfold toInt32
  omega

/-- The uniform fallback of BFSChooser::choose on a contract-sized arity:
one raw draw reduced modulo n. -/
theorem bfsUniformFallback_ok {n : Nat} (h1 : 1 ≤ n) (h2 : n ≤ 2 ^ 31) (r : Rng) :
    bfsUniformFallback n r = some (r.peek % n, r.next) := by
  have ht : toInt32 ((n : ℤ) - 1) = (n : ℤ) - 1 :=
    toInt32_small (by omega) (by omega)
  have harg : ((0 : ℤ) + (r.peek : ℤ) % ((n : ℤ) - 1 - 0 + 1)).toNat = r.peek % n := by
    have he : (n : ℤ) - 1 - 0 + 1 = (n : ℤ) := by ring
    rw [he]
    omega
  rw [bfsUniformFallback, ht, uniformIntDraw, if_pos (by omega : (0 : ℤ) ≤ (n : ℤ) - 1)]
  simp only [harg]

/-- chooseInternal past the frontier: allocate, link, draw, maybe enqueue. -/
theorem chooseInternal_explore {g : BfsState} {c : BfsChooser} {n : Nat}
    {fb : Rng → Option (Nat × Rng)} {nd : BNode} {k : Nat} {rng1 : Rng}
    (hch : g.choosing = true)
    (hnd : g.store[c.current]? = some nd)
    (hsl : nd.children[c.lastChoice]? = some none)
    (hsv : c.savedChoices = [])
    (hfb : fb g.rng = some (k, rng1)) :
    chooseInternal g c n fb = .ok (k,
      { g with
          store := setChild g.store c.current c.lastChoice (some g.store.length) ++
            [⟨some c.current, List.replicate n none⟩],
          totalNodes := g.totalNodes + 1,
          pending := if 1 < n then priqInsert g.pending g.store.length c.level
            else g.pending,
          rng := rng1 },
      ⟨g.store.length, k, c.level + 1, c.savedChoices⟩) := by
  simp only [chooseInternal, hch, hnd, hsl, hsv, hfb]
  simp

/-- chooseInternal on an already-known child: arity check, pop the next saved
choice, move down; the guide is untouched. -/
theorem chooseInternal_replay {g : BfsState} {c : BfsChooser} {n : Nat}
    {fb : Rng → Option (Nat × Rng)} {nd ndn : BNode} {nid choice : Nat}
    (hch : g.choosing = true)
    (hnd : g.store[c.current]? = some nd)
    (hsl : nd.children[c.lastChoice]? = some (some nid))
    (hnid : g.store[nid]? = some ndn)
    (hlen : n = ndn.children.length)
    (hlast : c.savedChoices.getLast? = some choice) :
    chooseInternal g c n fb = .ok (choice, g,
      ⟨nid, choice, c.level + 1, c.savedChoices.dropLast⟩) := by
  simp only [chooseInternal, hch, hnd, hsl, hnid, hlast]
  simp [hlen]

/-- The destructor when the final slot is still untaken: allocate the leaf
marker. -/
theorem disposeChooser_new {g : BfsState} {c : BfsChooser} {nd : BNode}
    (hsv : c.savedChoices = [])
    (hnd : g.store[c.current]? = some nd)
    (hsl : nd.children[c.lastChoice]? = some none) :
    disposeChooser g c = .ok
      { g with
          store := setChild g.store c.current c.lastChoice (some g.store.length) ++
            [⟨none, []⟩],
          totalNodes := g.totalNodes + 1,
          choosing := false } := by
  simp only [disposeChooser, hsv, hnd, hsl]
  simp

/-- The destructor when the final node already exists: only clear Choosing. -/
theorem disposeChooser_old {g : BfsState} {c : BfsChooser} {nd : BNode} {nid : Nat}
    (hsv : c.savedChoices = [])
    (hnd : g.store[c.current]? = some nd)
    (hsl : nd.children[c.lastChoice]? = some (some nid)) :
    disposeChooser g c = .ok { g with choosing := false } := by
  simp only [disposeChooser, hsv, hnd, hsl]
  simp

/-- Unfolding runGen at a leaf. -/
theorem runGen_leaf (g : BfsState) (c : BfsChooser) : runGen .leaf g c = .ok (g, c) := by
  rw [runGen]

/-- Unfolding runGen at a choose point whose call and branch are known. -/
theorem runGen_node_eq (cs : List DTree) (u1 : DTree) (g g1 : BfsState)
    (c c1 : BfsChooser) (k : Nat)
    (hstep : bfsChoose g c cs.length = .ok (k, g1, c1)) (hcs : cs[k]? = some u1) :
    runGen (.node cs) g c = runGen u1 g1 c1 := by
  rw [runGen]
  simp only [hstep]
  split
  · rename_i hnone
    simp_all
  · rename_i t1 hsome
    rw [hcs] at hsome
    cases hsome
    rfl

/-- Inversion for the generator contract at a choose point. -/
theorem respectful_node_inv {cs : List DTree} (h : Respectful (.node cs)) :
    1 ≤ cs.length ∧ cs.length ≤ 2 ^ 31 ∧ ∀ t ∈ cs, Respectful t := by
  cases h with
  | node _ h1 h2 h3 => exact ⟨h1, h2, h3⟩

/-- A known head survives appending on the right. -/
theorem head?_append_some {xs ys : List Nat} {v : Nat} (h : xs.head? = some v) :
    (xs ++ ys).head? = some v := by
  cases xs
  · simp at h
  · simpa using h

/-- A list with a known head decomposes. -/
theorem eq_cons_of_head? {xs : List Nat} {v : Nat} (h : xs.head? = some v) :
    xs = v :: xs.tail := by
  cases xs
  · simp at h
  · simp at h
    simp [h]

/-- A replicate slot is untaken. -/
theorem replicate_slot_none {n i : Nat} (h : i < n) :
    (List.replicate n (none : Option Nat))[i]? = some none := by
  rw [List.getElem?_replicate]
  simp [h]

/-- A replicate vector has no taken slot. -/
theorem replicate_no_some (n : Nat) :
    ∀ (i c : Nat), (List.replicate n (none : Option Nat))[i]? = some (some c) → False := by
  intro i c h
  rw [List.getElem?_replicate] at h
  split at h <;> simp at h

/-- The tail of a traversal past the frontier: from an untaken slot, the
generator's remaining subtree is materialised as a fresh virgin chain (one
random branch taken at each new node), the destructor adds the final leaf
marker, and the guide invariants and queue bookkeeping come out as described
by ExploreOut. -/
theorem run_explore (u : DTree) (g : BfsState) (c : BfsChooser)
    (hresp : Respectful u)
    (hsinv : SInv g.store)
    (hch : g.choosing = true)
    (hsv : c.savedChoices = [])
    (hcur : ∃ nd : BNode, g.store[c.current]? = some nd ∧
      nd.children[c.lastChoice]? = some none)
    (hpp : ∃ pp : List Nat, followPath g.store 0 pp = some c.current ∧
      pp.length = c.level ∧ (pp ++ [c.lastChoice]).head? = some 0)
    (hcount : g.totalNodes + 1 = g.store.length) :
    ∃ (g2 : BfsState) (c2 : BfsChooser) (gf : BfsState) (qnew : List (Nat × Nat)),
      runGen u g c = .ok (g2, c2) ∧ disposeChooser g2 c2 = .ok gf ∧
      ExploreOut g c u gf qnew := by
  obtain ⟨nd, hnd, hsl⟩ := hcur
  obtain ⟨pp, hppf, hpplen, hpphead⟩ := hpp
  have hcurlt : c.current < g.store.length := (List.getElem?_eq_some.1 hnd).1
  match u, hresp with
  | .leaf, _ =>
    refine ⟨g, c,
      { g with
          store := setChild g.store c.current c.lastChoice (some g.store.length) ++
            [⟨none, []⟩],
          totalNodes := g.totalNodes + 1,
          choosing := false },
      [], runGen_leaf g c, disposeChooser_new hsv hnd hsl, ?_⟩
    refine ⟨?_, ?_, ?_, ?_, ?_, ?_, ?_, ?_, ?_, ?_, ?_, ?_, ?_, ?_, ?_, ?_, ?_, ?_⟩
    · intro x hx hxc
      exact alloc_lookup_other hx hxc
    · intro nd2 hnd2
      rw [hnd2] at hnd
      cases hnd
      exact alloc_lookup_cur hnd2
    · simp only [alloc_length]
      omega
    · exact .leaf (alloc_lookup_new g.store c.current c.lastChoice _) rfl
    · simp [done]
    · exact sinv_step hsinv hnd hsl ⟨none, []⟩ (by intro h; simp at h)
        (by intro i c2 h; simp at h)
    · exact alloc_ext hnd hsl
    · simp only [alloc_length]
      omega
    · rfl
    · rfl
    · rfl
    · simp
    · intro e he
      simp at he
    · intro e he
      simp at he
    · intro e he
      simp at he
    · intro x nd2 hge hx hex
      have hxlt : x < g.store.length + 1 := by
        have := (List.getElem?_eq_some.1 hx).1
        rwa [alloc_length] at this
      have hxe : x = g.store.length := by omega
      subst hxe
      rw [alloc_lookup_new] at hx
      cases hx
      obtain ⟨i, hi⟩ := hex
      simp at hi
    · simp
    · intro x i nd2 hge hx hlen1 hslot
      have hxlt : x < g.store.length + 1 := by
        have := (List.getElem?_eq_some.1 hx).1
        rwa [alloc_length] at this
      have hxe : x = g.store.length := by omega
      subst hxe
      rw [alloc_lookup_new] at hx
      cases hx
      simp at hslot
  | .node cs, hresp =>
    obtain ⟨hn1, hn2, hn3⟩ := respectful_node_inv hresp
    have hfb := bfsUniformFallback_ok hn1 hn2 g.rng
    have hk : g.rng.peek % cs.length < cs.length := Nat.mod_lt _ (by omega)
    obtain ⟨u1, hcs⟩ : ∃ u1, cs[g.rng.peek % cs.length]? = some u1 :=
      ⟨cs[g.rng.peek % cs.length], List.getElem?_eq_getElem hk⟩
    have hstep : bfsChoose g c cs.length = .ok (g.rng.peek % cs.length,
        { g with
            store := setChild g.store c.current c.lastChoice (some g.store.length) ++
              [⟨some c.current, List.replicate cs.length none⟩],
            totalNodes := g.totalNodes + 1,
            pending := if 1 < cs.length then
              priqInsert g.pending g.store.length c.level else g.pending,
            rng := g.rng.next },
        ⟨g.store.length, g.rng.peek % cs.length, c.level + 1, []⟩) := by
      rw [bfsChoose, chooseInternal_explore hch hnd hsl hsv hfb, hsv]
    have hsinv1 : SInv (setChild g.store c.current c.lastChoice (some g.store.length) ++
        [⟨some c.current, List.replicate cs.length none⟩]) :=
      sinv_step hsinv hnd hsl _ (fun _ => rfl)
        (fun i c2 hslot => replicate_no_some cs.length i c2 hslot)
    have hpp1f : followPath (setChild g.store c.current c.lastChoice
          (some g.store.length) ++ [⟨some c.current, List.replicate cs.length none⟩])
        0 (pp ++ [c.lastChoice]) = some g.store.length :=
      followPath_snoc pp (followPath_mono (alloc_ext hnd hsl) pp hppf)
        (alloc_edge_new hnd hsl _)
    obtain ⟨g2, c2, gf, qnew1, hrun1, hdisp1, O⟩ :=
      run_explore u1
        { g with
            store := setChild g.store c.current c.lastChoice (some g.store.length) ++
              [⟨some c.current, List.replicate cs.length none⟩],
            totalNodes := g.totalNodes + 1,
            pending := if 1 < cs.length then
              priqInsert g.pending g.store.length c.level else g.pending,
            rng := g.rng.next }
        ⟨g.store.length, g.rng.peek % cs.length, c.level + 1, []⟩
        (hn3 u1 (List.getElem?_mem hcs))
        hsinv1 hch rfl
        ⟨⟨some c.current, List.replicate cs.length none⟩,
          alloc_lookup_new g.store c.current c.lastChoice _,
          replicate_slot_none hk⟩
        ⟨pp ++ [c.lastChoice], hpp1f, by simp [hpplen], head?_append_some hpphead⟩
        (by simp only [alloc_length]; omega)
    refine ⟨g2, c2, gf,
      (if 1 < cs.length then [(g.store.length, c.level)] else []) ++ qnew1,
      (runGen_node_eq cs u1 g _ c _ _ hstep hcs).trans hrun1, hdisp1, ?_⟩
    have hagree1 := O.agree
    have hg1len : (setChild g.store c.current c.lastChoice (some g.store.length) ++
        [(⟨some c.current, List.replicate cs.length none⟩ : BNode)]).length =
        g.store.length + 1 := alloc_length g.store c.current c.lastChoice _
    have hcur1 := O.curSet ⟨some c.current, List.replicate cs.length none⟩
      (alloc_lookup_new g.store c.current c.lastChoice _)
    rw [hg1len] at hcur1
    have hgrow1 := O.grow
    rw [hg1len] at hgrow1
    refine ⟨?_, ?_, ?_, ?_, ?_, ?_, ?_, ?_, ?_, ?_, ?_, ?_, ?_, ?_, ?_, ?_, ?_, ?_⟩
    · intro x hx hxc
      have h1 : gf.store[x]? = (setChild g.store c.current c.lastChoice
          (some g.store.length) ++ [⟨some c.current, List.replicate cs.length none⟩])[x]? :=
        hagree1 x (by rw [hg1len]; omega) (by show x ≠ g.store.length; omega)
      rw [h1]
      exact alloc_lookup_other hx hxc
    · intro nd2 hnd2
      rw [hnd2] at hnd
      cases hnd
      have h1 : gf.store[c.current]? = (setChild g.store c.current c.lastChoice
          (some g.store.length) ++ [⟨some c.current, List.replicate cs.length none⟩])[c.current]? :=
        hagree1 c.current (by rw [hg1len]; omega)
          (by show c.current ≠ g.store.length; omega)
      rw [h1]
      exact alloc_lookup_cur hnd2
    · omega
    · refine .node hcur1 (by simp) ?_
      intro i cid u2 hcsi hsli
      rcases eq_or_ne i (g.rng.peek % cs.length) with hik | hik
      · subst hik
        rw [List.getElem?_set_self (by simpa using hk)] at hsli
        cases hsli
        rw [hcs] at hcsi
        cases hcsi
        have hr := O.rep
        rw [hg1len] at hr
        exact hr
      · rw [List.getElem?_set_ne (fun h => hik h.symm)] at hsli
        exact absurd hsli (fun h => replicate_no_some cs.length i cid h)
    · simp only [done, hcur1]
      rw [doneL_single gf.store (g.rng.peek % cs.length) cs.length cs u1
        (g.store.length + 1) hcs hk]
      have ho := O.one
      rw [hg1len] at ho
      exact ho
    · exact O.sinv
    · exact ext_trans (alloc_ext hnd hsl) O.ext
    · exact O.count
    · exact O.choosing
    · exact O.started
    · exact O.msl
    · rw [O.pend]
      rcases Nat.lt_or_ge 1 cs.length with h1n | h1n
      · simp [if_pos h1n, priqInsert]
      · rw [if_neg (by omega), if_neg (by omega)]
        simp
    · intro e he
      rcases List.mem_append.1 he with he0 | he1
      · rw [if_pos (by
          by_contra hcon
          rw [if_neg hcon] at he0
          simp at he0)] at he0
        simp at he0
        rw [he0]
        refine ⟨le_rfl, ?_, le_rfl⟩
        show g.store.length < gf.store.length
        omega
      · obtain ⟨hb1, hb2, hb3⟩ := O.qbounds e he1
        rw [hg1len] at hb1
        exact ⟨by omega, hb2, by
          have : c.level + 1 ≤ e.2 := hb3
          omega⟩
    · intro e he
      rcases List.mem_append.1 he with he0 | he1
      · rw [if_pos (by
          by_contra hcon
          rw [if_neg hcon] at he0
          simp at he0)] at he0
        simp at he0
        rw [he0]
        have hppc : pp ++ [c.lastChoice] = 0 :: (pp ++ [c.lastChoice]).tail :=
          eq_cons_of_head? hpphead
        refine ⟨(pp ++ [c.lastChoice]).tail, ?_, ?_⟩
        · show followPath gf.store 0 (0 :: (pp ++ [c.lastChoice]).tail) =
            some g.store.length
          rw [← hppc]
          exact followPath_mono O.ext _ hpp1f
        · show (pp ++ [c.lastChoice]).tail.length = c.level
          have hlen : (pp ++ [c.lastChoice]).length =
              (pp ++ [c.lastChoice]).tail.length + 1 := by
            rw [hppc]
            simp
          simp only [List.length_append, List.length_cons, List.length_nil] at hlen
          omega
      · exact O.qpath e he1
    · intro e he
      rcases List.mem_append.1 he with he0 | he1
      · have h1n : 1 < cs.length := by
          by_contra hcon
          rw [if_neg hcon] at he0
          simp at he0
        rw [if_pos h1n] at he0
        simp at he0
        rw [he0]
        refine ⟨⟨some c.current,
          (List.replicate cs.length none).set (g.rng.peek % cs.length)
            (some (g.store.length + 1))⟩, hcur1, by simp; omega, ?_⟩
        refine ⟨if g.rng.peek % cs.length = 0 then 1 else 0, ?_⟩
        rcases eq_or_ne (g.rng.peek % cs.length) 0 with hk0 | hk0
        · rw [if_pos hk0]
          rw [List.getElem?_set_ne (by omega)]
          exact replicate_slot_none (by omega)
        · rw [if_neg hk0]
          rw [List.getElem?_set_ne (by omega)]
          exact replicate_slot_none (by omega)
      · exact O.quntaken e he1
    · intro x nd2 hge hx hex
      rcases eq_or_ne x g.store.length with hxe | hxe
      · subst hxe
        rw [hcur1] at hx
        cases hx
        rcases Nat.lt_or_ge 1 cs.length with h1n | h1n
        · exact ⟨c.level, by rw [if_pos h1n]; simp⟩
        · obtain ⟨i, hi⟩ := hex
          have hcs1 : cs.length = 1 := by omega
          have hik : i = g.rng.peek % cs.length := by
            by_contra hik
            rw [List.getElem?_set_ne (fun h => hik h.symm)] at hi
            rw [List.getElem?_replicate] at hi
            split at hi
            · omega
            · simp at hi
          subst hik
          rw [List.getElem?_set_self (by simpa using hk)] at hi
          simp at hi
      · obtain ⟨lvl, hlvl⟩ := O.qcomplete x nd2 (by rw [hg1len]; omega) hx hex
        exact ⟨lvl, List.mem_append.2 (Or.inr hlvl)⟩
    · rw [List.map_append]
      apply List.Nodup.append
      · rcases Nat.lt_or_ge 1 cs.length with h1n | h1n
        · rw [if_pos h1n]
          simp
        · rw [if_neg (by omega)]
          simp
      · exact O.qnodup
      · intro a ha1 ha2
        rcases Nat.lt_or_ge 1 cs.length with h1n | h1n
        · rw [if_pos h1n] at ha1
          simp at ha1
          subst ha1
          obtain ⟨e, he, hee⟩ := List.mem_map.1 ha2
          obtain ⟨hb1, _, _⟩ := O.qbounds e he
          rw [hg1len] at hb1
          omega
        · rw [if_neg (by omega)] at ha1
          simp at ha1
    · intro x i nd2 hge hx hlen2 hslot
      rcases eq_or_ne x g.store.length with hxe | hxe
      · subst hxe
        rw [hcur1] at hx
        cases hx
        simp at hlen2
        have hcs1 : cs.length = 1 := by omega
        have hik : i = g.rng.peek % cs.length := by
          by_contra hik
          rw [List.getElem?_set_ne (fun h => hik h.symm)] at hslot
          rw [List.getElem?_replicate] at hslot
          split at hslot
          · omega
          · simp at hslot
        subst hik
        rw [List.getElem?_set_self (by simpa using hk)] at hslot
        simp at hslot
      · exact O.small2 x i nd2 (by rw [hg1len]; omega) hx hlen2 hslot
termination_by sizeOf u
decreasing_by
  have hm : u1 ∈ cs := List.getElem?_mem hcs
  have := List.sizeOf_lt_of_mem hm
  simp only [DTree.node.sizeOf_spec]
  omega

/-- The replay phase of a traversal: with the saved choices holding the
picked untaken branch nxt on top and the downward edge indices reversed
below it, the generator re-descends through existing nodes without touching
the guide, reaches the target, takes nxt, and the run finishes through the
explore phase, whose effect ExploreOut describes relative to the target
slot. -/
theorem run_replay :
    ∀ (rest : List Nat) (u : DTree) (c : BfsChooser) {g : BfsState}
      {tgt nxt cid : Nat},
      Respectful u →
      SInv g.store →
      g.choosing = true →
      g.totalNodes + 1 = g.store.length →
      c.savedChoices = nxt :: rest.reverse →
      (∃ nd : BNode, g.store[c.current]? = some nd ∧
        nd.children[c.lastChoice]? = some (some cid)) →
      Rep g.store cid u →
      followPath g.store cid rest = some tgt →
      (∃ ndt : BNode, g.store[tgt]? = some ndt ∧ ndt.children[nxt]? = some none) →
      (∃ pp : List Nat, followPath g.store 0 pp = some c.current ∧
        pp.length = c.level ∧ (pp ++ [c.lastChoice]).head? = some 0) →
      ∃ (csT : List DTree) (unxt : DTree) (g2 : BfsState) (c2 : BfsChooser)
        (gf : BfsState) (qnew : List (Nat × Nat)),
        runGen u g c = .ok (g2, c2) ∧
        disposeChooser g2 c2 = .ok gf ∧
        Descend g.store cid u rest tgt (.node csT) ∧
        csT[nxt]? = some unxt ∧
        ExploreOut g ⟨tgt, nxt, c.level + rest.length + 1, []⟩ unxt gf qnew := by
  intro rest
  induction rest with
  | nil =>
    intro u c g tgt nxt cid hresp hsinv hch hcount hsv hedge hrep hf htgt hpp
    obtain ⟨nd, hnd, hsl⟩ := hedge
    simp only [followPath] at hf
    injection hf with hf
    subst hf
    obtain ⟨ndt, htgt1, htgt2⟩ := htgt
    match u, hresp with
    | .leaf, _ =>
      obtain ⟨nd2, h1, h2⟩ := rep_leaf_inv hrep
      rw [htgt1] at h1
      cases h1
      rw [h2] at htgt2
      simp at htgt2
    | .node csT, hresp =>
      obtain ⟨nd2, h1, h2, h3⟩ := rep_node_inv hrep
      rw [htgt1] at h1
      cases h1
      have hnxtlt : nxt < csT.length := by
        have := (List.getElem?_eq_some.1 htgt2).1
        omega
      obtain ⟨unxt, hunxt⟩ : ∃ unxt, csT[nxt]? = some unxt :=
        ⟨csT[nxt], List.getElem?_eq_getElem hnxtlt⟩
      have hresp2 : Respectful unxt :=
        (respectful_node_inv hresp).2.2 unxt (List.getElem?_mem hunxt)
      have hlast : c.savedChoices.getLast? = some nxt := by
        rw [hsv]
        simp
      have hdrop : c.savedChoices.dropLast = [] := by
        rw [hsv]
        simp
      have hstep : bfsChoose g c csT.length =
          .ok (nxt, g, ⟨cid, nxt, c.level + 1, []⟩) := by
        have h := @chooseInternal_replay g c csT.length
          (bfsUniformFallback csT.length) nd ndt cid nxt hch hnd hsl htgt1
          h2.symm hlast
        rw [bfsChoose, h, hdrop]
      obtain ⟨pp, hppf, hpplen, hpphead⟩ := hpp
      have hppT : followPath g.store 0 (pp ++ [c.lastChoice]) = some cid :=
        followPath_snoc pp hppf ⟨nd, hnd, hsl⟩
      obtain ⟨g2, c2, gf, qnew, hrun, hdisp, O⟩ :=
        run_explore unxt g ⟨cid, nxt, c.level + 1, []⟩ hresp2 hsinv hch rfl
          ⟨ndt, htgt1, htgt2⟩
          ⟨pp ++ [c.lastChoice], hppT, by simp [hpplen], head?_append_some hpphead⟩
          hcount
      exact ⟨csT, unxt, g2, c2, gf, qnew,
        (runGen_node_eq csT unxt g g c _ nxt hstep hunxt).trans hrun, hdisp,
        .nil cid (.node csT), hunxt, O⟩
  | cons a rest2 ih =>
    intro u c g tgt nxt cid hresp hsinv hch hcount hsv hedge hrep hf htgt hpp
    obtain ⟨nd, hnd, hsl⟩ := hedge
    simp only [followPath] at hf
    match hndc : g.store[cid]? with
    | none => simp [hndc] at hf
    | some ndc =>
      simp only [hndc] at hf
      match hslc : ndc.children[a]? with
      | none => simp [hslc] at hf
      | some none => simp [hslc] at hf
      | some (some cid2) =>
        simp only [hslc] at hf
        match u, hresp with
        | .leaf, _ =>
          obtain ⟨nd2, h1, h2⟩ := rep_leaf_inv hrep
          rw [hndc] at h1
          cases h1
          rw [h2] at hslc
          simp at hslc
        | .node cs, hresp =>
          obtain ⟨nd2, h1, h2, h3⟩ := rep_node_inv hrep
          rw [hndc] at h1
          cases h1
          have halt : a < cs.length := by
            have := (List.getElem?_eq_some.1 hslc).1
            omega
          obtain ⟨u2, hu2⟩ : ∃ u2, cs[a]? = some u2 :=
            ⟨cs[a], List.getElem?_eq_getElem halt⟩
          have hrep2 : Rep g.store cid2 u2 := h3 a cid2 u2 hu2 hslc
          have hresp2 : Respectful u2 :=
            (respectful_node_inv hresp).2.2 u2 (List.getElem?_mem hu2)
          have hlast : c.savedChoices.getLast? = some a := by
            rw [hsv, List.reverse_cons, ← List.cons_append, List.getLast?_concat]
          have hdrop : c.savedChoices.dropLast = nxt :: rest2.reverse := by
            rw [hsv, List.reverse_cons, ← List.cons_append, List.dropLast_concat]
          have hstep : bfsChoose g c cs.length =
              .ok (a, g, ⟨cid, a, c.level + 1, nxt :: rest2.reverse⟩) := by
            have h := @chooseInternal_replay g c cs.length
              (bfsUniformFallback cs.length) nd ndc cid a hch hnd hsl hndc
              h2.symm hlast
            rw [bfsChoose, h, hdrop]
          obtain ⟨pp, hppf, hpplen, hpphead⟩ := hpp
          have hppT : followPath g.store 0 (pp ++ [c.lastChoice]) = some cid :=
            followPath_snoc pp hppf ⟨nd, hnd, hsl⟩
          obtain ⟨csT, unxt, g2, c2, gf, qnew, hrun, hdisp, hdesc, hunxtT, O⟩ :=
            ih u2 ⟨cid, a, c.level + 1, nxt :: rest2.reverse⟩ hresp2 hsinv hch
              hcount rfl ⟨ndc, hndc, hslc⟩ hrep2 hf htgt
              ⟨pp ++ [c.lastChoice], hppT, by simp [hpplen],
                head?_append_some hpphead⟩
          refine ⟨csT, unxt, g2, c2, gf, qnew,
            (runGen_node_eq cs u2 g g c _ a hstep hu2).trans hrun, hdisp,
            .cons ⟨ndc, hndc, hslc⟩ hu2 hdesc, hunxtT, ?_⟩
          have hlv : c.level + (a :: rest2).length + 1 =
              c.level + 1 + rest2.length + 1 := by
            simp
            omega
          rw [hlv]
          exact O

/-- One full traversal of a guide whose frontier is nonempty: makeChooser
plans a path to a popped frontier node, the generator replays it and explores
one new branch, and the destructor closes the run.  The guide invariant is
maintained and exactly one new root-to-leaf path is materialised. -/
theorem traverse_step {t : DTree} {g : BfsState}
    (hresp : Respectful t) (hinv : Inv t g) (hne : g.pending ≠ []) :
    ∃ g2 : BfsState, traverseOnce t g = .ok (some g2) ∧ Inv t g2 ∧
      doneG g2 t = doneG g t + 1 := by
  obtain ⟨tgt, lvl, l1, l2, hpq, hqdecomp, hlvlmin⟩ := priqRemoveHead_spec g.pending hne
  have hmem : (tgt, lvl) ∈ g.pending := by
    rw [hqdecomp]
    simp
  obtain ⟨ndt, htgt, hbig, hex⟩ := hinv.qUntaken (tgt, lvl) hmem
  obtain ⟨i0, hslot0⟩ := hex
  have hlvlZ : ¬ ((lvl : ℤ) < g.maxSavedLevel) := by
    have h : g.maxSavedLevel ≤ (lvl : ℤ) := hinv.qLvl (tgt, lvl) hmem
    omega
  obtain ⟨nxt, hnxt⟩ := scan_some_of_none_slot hslot0
  obtain ⟨hnxtslot, hnxthigh⟩ := c7_highest_untaken ndt.children nxt hnxt
  have hscan : scanUntaken ndt.children =
      ((scanUntaken ndt.children).1, some nxt) := by
    rw [← hnxt]
  have hcnt : (scanUntaken ndt.children).1 = noneCount ndt.children := scan_count _
  obtain ⟨hp, hpf0, hplen0⟩ := hinv.qPos (tgt, lvl) hmem
  have hpf : followPath g.store 0 (0 :: hp) = some tgt := hpf0
  have hplen : hp.length = lvl := hplen0
  have htgtlt : tgt < g.store.length := (List.getElem?_eq_some.1 htgt).1
  have hwalk : walkAncestors g.store g.store.length tgt [nxt] =
      some ([nxt] ++ hp.reverse) :=
    walk_spec hinv.sinv hp tgt [nxt] g.store.length hpf ⟨ndt, htgt, by omega⟩ htgtlt
  have hmk : makeChooser g = .ok (some
      ({ g with
           pending := if 1 < (scanUntaken ndt.children).1 then
             priqInsert (l1 ++ l2) tgt lvl else l1 ++ l2,
           maxSavedLevel := (lvl : ℤ),
           choosing := true },
       ⟨0, 0, 0, nxt :: hp.reverse⟩)) := by
    rw [makeChooser]
    rw [if_neg (by rw [hinv.choosing]; intro h; cases h)]
    rw [if_neg (by rw [hinv.started]; intro h; exact h rfl)]
    simp only [hpq, htgt, if_neg hlvlZ]
    rw [hscan]
    simp only [hwalk]
    rfl
  obtain ⟨r1, hredge, hrept⟩ := hinv.rep
  obtain ⟨rd, hrd, hrdsl⟩ := hredge
  have hf1 : followPath g.store r1 hp = some tgt := by
    rw [← followPath_zero_cons hrd hrdsl hp]
    exact hpf
  obtain ⟨csT, unxt, g2, c2, gf, qnew, hrun, hdisp, hdesc, hunxt, O⟩ :=
    @run_replay hp t ⟨0, 0, 0, nxt :: hp.reverse⟩
      { g with
          pending := if 1 < (scanUntaken ndt.children).1 then
            priqInsert (l1 ++ l2) tgt lvl else l1 ++ l2,
          maxSavedLevel := (lvl : ℤ),
          choosing := true }
      tgt nxt r1 hresp hinv.sinv rfl hinv.count rfl ⟨rd, hrd, hrdsl⟩ hrept hf1
      ⟨ndt, htgt, hnxtslot⟩ ⟨[], rfl, rfl, rfl⟩
  have htrav : traverseOnce t g = .ok (some gf) := by
    rw [traverseOnce]
    simp only [hmk, hrun, hdisp]
  have hagree : ∀ x : Nat, x < g.store.length → x ≠ tgt →
      gf.store[x]? = g.store[x]? := O.agree
  have hcur : gf.store[tgt]? =
      some ⟨ndt.parent, ndt.children.set nxt (some g.store.length)⟩ := O.curSet ndt htgt
  have hone : done gf.store g.store.length unxt = 1 := O.one
  have hrepnew : Rep gf.store g.store.length unxt := O.rep
  have hext : Ext g.store gf.store := O.ext
  obtain ⟨rd0, hrd0, hrdp0, hrdlen0⟩ := hinv.sinv.root
  have hrdeq : rd0 = rd := by
    rw [hrd] at hrd0
    injection hrd0 with h
    exact h.symm
  have htgt0 : tgt ≠ 0 := by
    intro h
    subst h
    rw [hrd] at htgt
    injection htgt with h2
    rw [hrdeq] at hrdlen0
    rw [← h2] at hbig
    omega
  have hrd2 : gf.store[0]? = some rd := by
    rw [hagree 0 (by omega) (fun h => htgt0 h.symm)]
    exact hrd
  have hdone : done gf.store r1 t = done g.store r1 t + 1 :=
    done_upd hinv.sinv.incr hinv.sinv.uniq hagree htgt hnxtslot hcur hunxt hone
      hp r1 t hdesc
  have hrepf : Rep gf.store r1 t :=
    rep_upd hinv.sinv.incr hinv.sinv.uniq hagree htgt hcur hunxt hrepnew
      hp r1 t hdesc hrept
  have hpid : ∀ e ∈ g.pending, e.1 < g.store.length := by
    intro e he
    obtain ⟨nd, h1, _⟩ := hinv.qUntaken e he
    exact (List.getElem?_eq_some.1 h1).1
  have hp2sub : ∀ e ∈ (if 1 < (scanUntaken ndt.children).1 then
      priqInsert (l1 ++ l2) tgt lvl else l1 ++ l2), e ∈ g.pending := by
    intro e he
    rw [hqdecomp]
    rcases Nat.lt_or_ge 1 ((scanUntaken ndt.children).1) with hc | hc
    · rw [if_pos hc] at he
      simp only [priqInsert, List.append_assoc, List.mem_append,
        List.mem_singleton] at he
      simp only [List.mem_append, List.mem_cons]
      tauto
    · rw [if_neg (by omega)] at he
      simp only [List.mem_append] at he
      simp only [List.mem_append, List.mem_cons]
      tauto
  have hp2of : ∀ e ∈ l1 ++ l2, e ∈ (if 1 < (scanUntaken ndt.children).1 then
      priqInsert (l1 ++ l2) tgt lvl else l1 ++ l2) := by
    intro e he
    rcases Nat.lt_or_ge 1 ((scanUntaken ndt.children).1) with hc | hc
    · rw [if_pos hc]
      exact List.mem_append.2 (Or.inl he)
    · rw [if_neg (by omega)]
      exact he
  have hnod := hinv.qNodup
  rw [hqdecomp, List.map_append, List.map_cons] at hnod
  obtain ⟨hnodA, hnodB, hnodD⟩ := List.nodup_append.1 hnod
  have htgtnotl2 : tgt ∉ l2.map Prod.fst := (List.nodup_cons.1 hnodB).1
  have htgtnotl1 : tgt ∉ l1.map Prod.fst := by
    intro h
    exact hnodD h (List.mem_cons_self _ _)
  have htgtnot12 : tgt ∉ (l1 ++ l2).map Prod.fst := by
    rw [List.map_append]
    intro h
    rcases List.mem_append.1 h with h | h
    · exact htgtnotl1 h
    · exact htgtnotl2 h
  have hnod12 : ((l1 ++ l2).map Prod.fst).Nodup := by
    rw [List.map_append]
    refine List.nodup_append.2 ⟨hnodA, (List.nodup_cons.1 hnodB).2, ?_⟩
    intro a ha hb
    exact hnodD ha (List.mem_cons_of_mem _ hb)
  have hp2tgt : ∀ e ∈ (if 1 < (scanUntaken ndt.children).1 then
      priqInsert (l1 ++ l2) tgt lvl else l1 ++ l2), e.1 = tgt →
      e = (tgt, lvl) ∧ 1 < (scanUntaken ndt.children).1 := by
    intro e he h1
    rcases Nat.lt_or_ge 1 ((scanUntaken ndt.children).1) with hc | hc
    · rw [if_pos hc] at he
      simp only [priqInsert, List.mem_append] at he
      rcases he with he | he
      · exfalso
        exact htgtnot12 (h1 ▸ List.mem_map_of_mem Prod.fst (List.mem_append.2 he))
      · simp at he
        exact ⟨he, hc⟩
    · rw [if_neg (by omega)] at he
      exfalso
      exact htgtnot12 (h1 ▸ List.mem_map_of_mem Prod.fst he)
  have htgtnot12s : tgt ∉ l1.map Prod.fst ++ l2.map Prod.fst := by
    rw [← List.map_append]
    exact htgtnot12
  have hnod12s : (l1.map Prod.fst ++ l2.map Prod.fst).Nodup := by
    rw [← List.map_append]
    exact hnod12
  have hnc_set : noneCount (ndt.children.set nxt (some g.store.length)) + 1 =
      noneCount ndt.children := noneCount_set_some ndt.children nxt _ hnxtslot
  have hpendf : gf.pending = (if 1 < (scanUntaken ndt.children).1 then
      priqInsert (l1 ++ l2) tgt lvl else l1 ++ l2) ++ qnew := O.pend
  have hqb : ∀ e ∈ qnew, g.store.length ≤ e.1 ∧ e.1 < gf.store.length ∧
      0 + hp.length + 1 ≤ e.2 := O.qbounds
  refine ⟨gf, htrav, ?_, ?_⟩
  · refine ⟨O.sinv, ?_, O.choosing, ⟨r1, ⟨rd, hrd2, hrdsl⟩, hrepf⟩, ?_, ?_, ?_, ?_, ?_, ?_, O.count⟩
    · rw [O.started]
      exact hinv.started
    · -- small
      intro id i nd hnd hlen hslot
      rcases Nat.lt_or_ge id g.store.length with hid | hid
      · rcases eq_or_ne id tgt with hidt | hidt
        · subst hidt
          rw [hcur] at hnd
          injection hnd with h
          rw [← h] at hlen
          simp at hlen
          omega
        · rw [hagree id hid hidt] at hnd
          exact hinv.small id i nd hnd hlen hslot
      · exact O.small2 id i nd hid hnd hlen hslot
    · -- qPos
      intro e he
      rw [hpendf] at he
      rcases List.mem_append.1 he with he | he
      · obtain ⟨h2, hf2, hl2⟩ := hinv.qPos e (hp2sub e he)
        exact ⟨h2, followPath_mono hext _ hf2, hl2⟩
      · exact O.qpath e he
    · -- qUntaken
      intro e he
      rw [hpendf] at he
      rcases List.mem_append.1 he with he | he
      · rcases eq_or_ne e.1 tgt with het | het
        · obtain ⟨hetgt, hc⟩ := hp2tgt e he het
          have h1n : 1 ≤ noneCount (ndt.children.set nxt (some g.store.length)) := by
            omega
          refine ⟨⟨ndt.parent, ndt.children.set nxt (some g.store.length)⟩,
            by rw [het]; exact hcur, by simp; omega, ?_⟩
          exact (noneCount_pos_iff _).1 h1n
        · obtain ⟨nd, h1, h2, h3⟩ := hinv.qUntaken e (hp2sub e he)
          have helt : e.1 < g.store.length := (List.getElem?_eq_some.1 h1).1
          exact ⟨nd, by rw [hagree e.1 helt het]; exact h1, h2, h3⟩
      · exact O.quntaken e he
    · -- qComplete
      intro id nd hnd hbig2 hex2
      rw [hpendf]
      rcases Nat.lt_or_ge id g.store.length with hid | hid
      · rcases eq_or_ne id tgt with hidt | hidt
        · subst hidt
          rw [hcur] at hnd
          injection hnd with h
          subst h
          obtain ⟨i2, hi2⟩ := hex2
          have hn1 : 1 ≤ noneCount (ndt.children.set nxt (some g.store.length)) :=
            (noneCount_pos_iff _).2 ⟨i2, hi2⟩
          have hc : 1 < (scanUntaken ndt.children).1 := by omega
          refine ⟨lvl, List.mem_append.2 (Or.inl ?_)⟩
          rw [if_pos hc]
          simp [priqInsert]
        · rw [hagree id hid hidt] at hnd
          obtain ⟨lvl2, hl2⟩ := hinv.qComplete id nd hnd hbig2 hex2
          rw [hqdecomp] at hl2
          have hl12 : (id, lvl2) ∈ l1 ++ l2 := by
            rcases List.mem_append.1 hl2 with h | h
            · exact List.mem_append.2 (Or.inl h)
            · rcases List.mem_cons.1 h with h | h
              · injection h with ha hb
                exact absurd ha hidt
              · exact List.mem_append.2 (Or.inr h)
          exact ⟨lvl2, List.mem_append.2 (Or.inl (hp2of _ hl12))⟩
      · obtain ⟨lvl2, hl2⟩ := O.qcomplete id nd hid hnd hex2
        exact ⟨lvl2, List.mem_append.2 (Or.inr hl2)⟩
    · -- qNodup
      rw [hpendf, List.map_append]
      refine List.Nodup.append ?_ O.qnodup ?_
      · rcases Nat.lt_or_ge 1 ((scanUntaken ndt.children).1) with hc | hc
        · rw [if_pos hc]
          simp only [priqInsert, List.map_append]
          refine List.nodup_append.2 ⟨hnod12s, by simp, ?_⟩
          intro a ha hb
          simp at hb
          rw [hb] at ha
          exact htgtnot12s ha
        · rw [if_neg (by omega)]
          rw [List.map_append]
          exact hnod12s
      · intro a ha hb
        obtain ⟨e, he, hee⟩ := List.mem_map.1 ha
        obtain ⟨e2, he2, hee2⟩ := List.mem_map.1 hb
        have h1 : e.1 < g.store.length := hpid e (hp2sub e he)
        have h2 : g.store.length ≤ e2.1 := (hqb e2 he2).1
        rw [hee] at h1
        rw [hee2] at h2
        omega
    · -- qLvl
      intro e he
      rw [hpendf] at he
      have hmsl : gf.maxSavedLevel = (lvl : ℤ) := O.msl
      rw [hmsl]
      rcases List.mem_append.1 he with he | he
      · have h := hlvlmin e (hp2sub e he)
        omega
      · have h := (hqb e he).2.2
        have h2 : lvl ≤ e.2 := by omega
        omega
  · -- done counting
    have hd1 : doneG gf t = done gf.store r1 t := by
      simp only [doneG, hrd2, hrdsl]
    have hd2 : doneG g t = done g.store r1 t := by
      simp only [doneG, hrd, hrdsl]
    rw [hd1, hd2, hdone]

/-- The freshly constructed guide's single-node store has no edges. -/
theorem boot_no_edge : ∀ p i c : Nat, ¬ Edge [(⟨none, [none]⟩ : BNode)] p i c := by
  intro p i c he
  obtain ⟨nd, h1, h2⟩ := he
  rcases p with _ | p
  · simp at h1
    subst h1
    rcases i with _ | i
    · simp at h2
    · simp at h2
  · simp at h1

/-- The freshly constructed guide's store satisfies the structure invariant. -/
theorem sinv_boot : SInv [(⟨none, [none]⟩ : BNode)] := by
  refine ⟨⟨⟨none, [none]⟩, rfl, rfl, rfl⟩, ?_, ?_, ?_, ?_⟩
  · intro p i c he
    exact absurd he (boot_no_edge p i c)
  · intro p i c p2 i2 he h2
    exact absurd he (boot_no_edge p i c)
  · intro p i c nd he h2
    exact absurd he (boot_no_edge p i c)
  · intro c h1 h2
    simp at h2
    exact absurd h1 (by omega)

/-- The bootstrap traversal: the first makeChooser call starts the guide with
an empty saved-choice list, the generator explores from the root's single
untaken slot, and the guide comes out satisfying the running invariant with
exactly one materialised path. -/
theorem traverse_boot (t : DTree) (r : Rng) (hresp : Respectful t) :
    ∃ gf : BfsState, traverseOnce t (freshBfs r) = .ok (some gf) ∧ Inv t gf ∧
      doneG gf t = 1 := by
  obtain ⟨g2, c2, gf, qnew, hrun, hdisp, O⟩ :=
    run_explore t ⟨[⟨none, [none]⟩], 0, [], -1, true, true, r⟩ ⟨0, 0, 0, []⟩
      hresp sinv_boot rfl rfl ⟨⟨none, [none]⟩, rfl, rfl⟩ ⟨[], rfl, rfl, rfl⟩ rfl
  have hcur0 : gf.store[0]? = some ⟨none, [some 1]⟩ := O.curSet ⟨none, [none]⟩ rfl
  have hpend : gf.pending = qnew := O.pend
  have hmk : makeChooser (freshBfs r) =
      .ok (some (⟨[⟨none, [none]⟩], 0, [], -1, true, true, r⟩, ⟨0, 0, 0, []⟩)) := rfl
  refine ⟨gf, ?_, ?_, ?_⟩
  · simp only [traverseOnce, hmk, hrun, hdisp]
  · refine ⟨O.sinv, O.started, O.choosing,
      ⟨1, ⟨⟨none, [some 1]⟩, hcur0, rfl⟩, O.rep⟩, ?_, ?_, ?_, ?_, ?_, ?_, O.count⟩
    · intro id i nd hnd hlen hslot
      rcases Nat.lt_or_ge id 1 with hid | hid
      · have hid0 : id = 0 := by omega
        subst hid0
        rw [hcur0] at hnd
        injection hnd with h
        subst h
        rcases i with _ | i
        · simp at hslot
        · simp at hslot
      · exact O.small2 id i nd hid hnd hlen hslot
    · intro e he
      rw [hpend] at he
      exact O.qpath e he
    · intro e he
      rw [hpend] at he
      exact O.quntaken e he
    · intro id nd hnd hbig2 hex2
      rcases Nat.lt_or_ge id 1 with hid | hid
      · have hid0 : id = 0 := by omega
        subst hid0
        rw [hcur0] at hnd
        injection hnd with h
        subst h
        obtain ⟨i, hi⟩ := hex2
        rcases i with _ | i
        · simp at hi
        · simp at hi
      · obtain ⟨lvl, hl⟩ := O.qcomplete id nd hid hnd hex2
        rw [hpend]
        exact ⟨lvl, hl⟩
    · rw [hpend]
      exact O.qnodup
    · intro e he
      have hmsl : gf.maxSavedLevel = (-1 : ℤ) := O.msl
      rw [hmsl]
      omega
  · simp only [doneG, hcur0]
    exact O.one

/-- A guide in the invariant with an empty frontier is exhausted: makeChooser
signals the absent value, the materialised path count equals the leaf count,
and every root-to-leaf path of the decision tree is present in the store. -/
theorem traverse_exhausted {t : DTree} {g : BfsState}
    (hinv : Inv t g) (hq : g.pending = []) :
    traverseOnce t g = .ok none ∧ doneG g t = t.leaves ∧
      ∀ p : List Nat, LeafPath t p → ∃ e, followPath g.store 0 (0 :: p) = some e := by
  have hmk : makeChooser g = .ok none := by
    rw [makeChooser]
    rw [if_neg (by rw [hinv.choosing]; intro h; cases h)]
    rw [if_neg (by rw [hinv.started]; intro h; exact h rfl)]
    rw [hq]
    rfl
  have hnn : NoNone g.store := by
    intro id i nd hnd hslot
    rcases Nat.lt_or_ge nd.children.length 2 with hsm | hbg
    · exact hinv.small id i nd hnd (by omega) hslot
    · obtain ⟨lvl, hl⟩ := hinv.qComplete id nd hnd hbg ⟨i, hslot⟩
      rw [hq] at hl
      simp at hl
  obtain ⟨r1, hredge, hrept⟩ := hinv.rep
  obtain ⟨rd, hrd, hrdsl⟩ := hredge
  refine ⟨?_, ?_, ?_⟩
  · simp only [traverseOnce, hmk]
  · simp only [doneG, hrd, hrdsl]
    exact full_done t g.store r1 hrept hnn
  · intro p hp
    obtain ⟨e, he⟩ := coverage hp g.store r1 hrept hnn
    exact ⟨e, by rw [followPath_zero_cons hrd hrdsl]; exact he⟩

/-- The materialised path count never exceeds the leaf count. -/
theorem doneG_le (g : BfsState) (t : DTree) : doneG g t ≤ t.leaves := by
  rw [doneG]
  match h : g.store[0]? with
  | none => simp [h]
  | some rd =>
    match h2 : rd.children[0]? with
    | none => simp [h, h2]
    | some none => simp [h, h2]
    | some (some c) =>
      simp only [h, h2]
      exact done_le g.store c t

/-- Driving a guide in the invariant with n paths left to materialise takes
exactly n more successful traversals and ends exhausted. -/
theorem drive_count {t : DTree} (hresp : Respectful t) :
    ∀ (n : Nat) (g : BfsState), Inv t g → t.leaves = doneG g t + n →
      ∃ gf : BfsState, drive t (n + 1) g = .ok (n, gf) ∧ Inv t gf ∧
        gf.pending = [] := by
  intro n
  induction n with
  | zero =>
    intro g hinv hcnt
    by_cases hq : g.pending = []
    · obtain ⟨hmk, _, _⟩ := traverse_exhausted hinv hq
      refine ⟨g, ?_, hinv, hq⟩
      rw [drive]
      simp only [hmk]
    · obtain ⟨g2, htrav, hinv2, hd2⟩ := traverse_step hresp hinv hq
      have h1 := doneG_le g2 t
      omega
  | succ n ih =>
    intro g hinv hcnt
    by_cases hq : g.pending = []
    · obtain ⟨_, hdg, _⟩ := traverse_exhausted hinv hq
      omega
    · obtain ⟨g2, htrav, hinv2, hd2⟩ := traverse_step hresp hinv hq
      obtain ⟨gf, hdrive, hinvf, hqf⟩ := ih g2 hinv2 (by omega)
      refine ⟨gf, ?_, hinvf, hqf⟩
      rw [drive]
      simp only [htrav, hdrive]

/-- Unfolding one successful traversal at the head of a drive. -/
theorem drive_succ (t : DTree) (fuel : Nat) (g g1 : BfsState)
    (h : traverseOnce t g = .ok (some g1)) :
    drive t (fuel + 1) g = match drive t fuel g1 with
      | .error e => .error e
      | .ok (cnt, gf) => .ok (cnt + 1, gf) := by
  simp only [drive, h]

/-- C2: for every contract-respecting generator with a finite decision tree of
L leaves, driving a fresh BFS guide yields exactly L successful makeChooser
calls before the first absent result (the bootstrap plus L-1 frontier
traversals), and afterwards every distinct root-to-leaf path of the decision
tree has been traversed: each one is materialised in the guide's tree. -/
theorem c2_bfs_exhaustive (t : DTree) (r : Rng) (hresp : Respectful t) :
    ∃ gf : BfsState, drive t (t.leaves + 1) (freshBfs r) = .ok (t.leaves, gf) ∧
      ∀ p : List Nat, LeafPath t p → ∃ e, followPath gf.store 0 (0 :: p) = some e := by
  obtain ⟨g1, htrav, hinv1, hd1⟩ := traverse_boot t r hresp
  have hl1 : 1 ≤ t.leaves := leaves_pos hresp
  obtain ⟨gf, hdrive, hinvf, hqf⟩ :=
    drive_count hresp (t.leaves - 1) g1 hinv1 (by omega)
  obtain ⟨hnone, hfull, hcov⟩ := traverse_exhausted hinvf hqf
  refine ⟨gf, ?_, hcov⟩
  have hfl : t.leaves + 1 = (t.leaves - 1 + 1) + 1 := by omega
  rw [hfl, drive_succ t (t.leaves - 1 + 1) (freshBfs r) g1 htrav, hdrive]
  show Except.ok (t.leaves - 1 + 1, gf) = Except.ok (t.leaves, gf)
  rw [Nat.sub_add_cancel hl1]

/-- Witness for c2_bfs_exhaustive: the two-leaf decision tree respects the
contract, and driving a fresh guide on it performs exactly two traversals and
covers both paths. -/
theorem c2_bfs_exhaustive_witness :
    Respectful (.node [.leaf, .leaf]) ∧
    ∃ gf : BfsState,
      drive (.node [.leaf, .leaf]) 3 (freshBfs ⟨fun _ => 0, 0⟩) = .ok (2, gf) ∧
      ∀ p : List Nat, LeafPath (.node [.leaf, .leaf]) p →
        ∃ e, followPath gf.store 0 (0 :: p) = some e := by
  have hresp : Respectful (.node [.leaf, .leaf]) := by
    refine .node _ (by decide) (by decide) ?_
    intro u hu
    rcases List.mem_cons.1 hu with h | h
    · rw [h]
      exact .leaf
    · rcases List.mem_cons.1 h with h2 | h2
      · rw [h2]
        exact .leaf
      · simp at h2
  exact ⟨hresp, c2_bfs_exhaustive (.node [.leaf, .leaf]) ⟨fun _ => 0, 0⟩ hresp⟩

/-- The root is always reachable. -/
theorem reachB_zero (store : List BNode) (fuel : Nat) :
    reachB store fuel 0 = true := by
  match fuel with
  | 0 => rfl
  | f + 1 => simp [reachB]

/-- In a store satisfying the structure invariant, every node is reachable
from the root with fuel at least its index. -/
theorem reachB_all {store : List BNode} (sinv : SInv store) :
    ∀ (i fuel : Nat), i < store.length → i ≤ fuel → reachB store fuel i = true := by
  intro i
  induction i using Nat.strong_induction_on with
  | _ i ih =>
    intro fuel hilt hifuel
    rcases Nat.eq_zero_or_pos i with hi0 | hipos
    · subst hi0
      exact reachB_zero store fuel
    · obtain ⟨p, i0, he⟩ := sinv.link i hipos hilt
      have hpi := (sinv.incr p i0 i he).1
      match fuel with
      | 0 => exact absurd hifuel (by omega)
      | f + 1 =>
        rw [reachB, Bool.or_eq_true]
        refine Or.inr (List.any_eq_true.2 ⟨p, List.mem_range.2 (by omega), ?_⟩)
        rw [Bool.and_eq_true]
        obtain ⟨nd, hnd, hsl⟩ := he
        constructor
        · have hgd : store.getD p ⟨none, []⟩ = nd := by
            rw [List.getD_eq_getElem?_getD, hnd]
            rfl
          rw [hgd]
          exact List.elem_eq_true_of_mem (List.getElem?_mem hsl)
        · exact ih p hpi f (by omega) (by omega)

/-- In a store satisfying the structure invariant, every node is reachable:
the reachable count is the store size. -/
theorem reach_count_full {store : List BNode} (sinv : SInv store) :
    reachCount store = store.length := by
  rw [reachCount]
  have hall : ∀ i ∈ List.range store.length,
      reachB store store.length i = true := by
    intro i hi
    exact reachB_all sinv i store.length (List.mem_range.1 hi)
      (le_of_lt (List.mem_range.1 hi))
  rw [List.filter_eq_self.2 hall]
  exact List.length_range _

/-- Iterated traversals preserve the guide invariant. -/
theorem traverseN_keep {t : DTree} (hresp : Respectful t) :
    ∀ (n : Nat) (g : BfsState), Inv t g → ∀ g2 : BfsState,
      traverseN t n g = .ok g2 → Inv t g2 := by
  intro n
  induction n with
  | zero =>
    intro g hinv g2 h
    simp only [traverseN] at h
    injection h with h
    exact h ▸ hinv
  | succ n ih =>
    intro g hinv g2 h
    by_cases hq : g.pending = []
    · obtain ⟨hnone, h2, h3⟩ := traverse_exhausted hinv hq
      simp only [traverseN, hnone] at h
      injection h with h
      exact h ▸ hinv
    · obtain ⟨g1, htrav, hinv1, hd1⟩ := traverse_step hresp hinv hq
      simp only [traverseN, htrav] at h
      exact ih g1 hinv1 g2 h

/-- C8 (amended): for the BFS guide, after any number of completed traversals
the counter totalNodes plus one equals the number of distinct tree nodes
reachable from the root — the constructor-allocated root is reachable but is
never counted, so totalNodes counts exactly the reachable non-root nodes. -/
theorem c8_totalNodes_nonroot (t : DTree) (r : Rng) (hresp : Respectful t) :
    ∀ (n : Nat) (g : BfsState), traverseN t n (freshBfs r) = .ok g →
      g.totalNodes + 1 = reachCount g.store := by
  intro n g h
  rcases n with _ | n
  · simp only [traverseN] at h
    injection h with h
    subst h
    rfl
  · simp only [traverseN] at h
    obtain ⟨g1, htrav, hinv1, hd1⟩ := traverse_boot t r hresp
    simp only [htrav] at h
    have hinv2 := traverseN_keep hresp n g1 hinv1 g h
    rw [reach_count_full hinv2.sinv]
    exact hinv2.count

/-- Witness for c8_totalNodes_nonroot: after one traversal of the two-leaf
tree the guide holds three reachable nodes (root, the choose node, one leaf
marker) and totalNodes is 2. -/
theorem c8_totalNodes_nonroot_witness :
    Respectful (.node [.leaf, .leaf]) ∧
    traverseN (.node [.leaf, .leaf]) 1 (freshBfs ⟨fun _ => 0, 0⟩) =
      .ok ⟨[⟨none, [some 1]⟩, ⟨some 0, [some 2, none]⟩, ⟨none, []⟩], 2,
        [(1, 0)], -1, false, true, ⟨fun _ => 0, 1⟩⟩ ∧
    (2 : Nat) + 1 = reachCount [⟨none, [some 1]⟩, ⟨some 0, [some 2, none]⟩,
      ⟨none, []⟩] := by
  have hresp : Respectful (.node [.leaf, .leaf]) := by
    refine .node _ (by decide) (by decide) ?_
    intro u hu
    rcases List.mem_cons.1 hu with h | h
    · rw [h]
      exact .leaf
    · rcases List.mem_cons.1 h with h2 | h2
      · rw [h2]
        exact .leaf
      · simp at h2
  have hb : bfsChoose ⟨[⟨none, [none]⟩], 0, [], -1, true, true, ⟨fun _ => 0, 0⟩⟩
      ⟨0, 0, 0, []⟩ 2 =
      .ok (0, ⟨[⟨none, [some 1]⟩, ⟨some 0, [none, none]⟩], 1, [(1, 0)], -1,
        true, true, ⟨fun _ => 0, 1⟩⟩, ⟨1, 0, 1, []⟩) := rfl
  have hrg : runGen (.node [.leaf, .leaf])
      ⟨[⟨none, [none]⟩], 0, [], -1, true, true, ⟨fun _ => 0, 0⟩⟩ ⟨0, 0, 0, []⟩ =
      .ok (⟨[⟨none, [some 1]⟩, ⟨some 0, [none, none]⟩], 1, [(1, 0)], -1,
        true, true, ⟨fun _ => 0, 1⟩⟩, ⟨1, 0, 1, []⟩) :=
    (runGen_node_eq [.leaf, .leaf] .leaf _ _ _ _ 0 hb rfl).trans
      (runGen_leaf _ _)
  have htv : traverseOnce (.node [.leaf, .leaf]) (freshBfs ⟨fun _ => 0, 0⟩) =
      .ok (some ⟨[⟨none, [some 1]⟩, ⟨some 0, [some 2, none]⟩, ⟨none, []⟩], 2,
        [(1, 0)], -1, false, true, ⟨fun _ => 0, 1⟩⟩) := by
    have hmk : makeChooser (freshBfs ⟨fun _ => 0, 0⟩) =
        .ok (some (⟨[⟨none, [none]⟩], 0, [], -1, true, true, ⟨fun _ => 0, 0⟩⟩,
          ⟨0, 0, 0, []⟩)) := rfl
    have hdp : disposeChooser
        ⟨[⟨none, [some 1]⟩, ⟨some 0, [none, none]⟩], 1, [(1, 0)], -1, true,
          true, ⟨fun _ => 0, 1⟩⟩ ⟨1, 0, 1, []⟩ =
        .ok ⟨[⟨none, [some 1]⟩, ⟨some 0, [some 2, none]⟩, ⟨none, []⟩], 2,
          [(1, 0)], -1, false, true, ⟨fun _ => 0, 1⟩⟩ := rfl
    simp only [traverseOnce, hmk, hrg, hdp]
  have htr : traverseN (.node [.leaf, .leaf]) 1 (freshBfs ⟨fun _ => 0, 0⟩) =
      .ok ⟨[⟨none, [some 1]⟩, ⟨some 0, [some 2, none]⟩, ⟨none, []⟩], 2,
        [(1, 0)], -1, false, true, ⟨fun _ => 0, 1⟩⟩ := by
    simp only [traverseN, htv]
  exact ⟨hresp, htr,
    c8_totalNodes_nonroot (.node [.leaf, .leaf]) ⟨fun _ => 0, 0⟩ hresp 1 _ htr⟩

end TreeGuide
